import Mathlib

/-!
Verification of the mutation engine of the `dem` module-vendoring manager
(`src/mutations.ts`).  JavaScript strings are embedded as `List Char`,
JavaScript arrays as `List`, and the plain-object alias map as an
association list in insertion order.  `mutateStore` is embedded as a pure
function returning `Except`, mirroring the source statement by statement;
`mutateRepository` is embedded as a trace-producing function parametrised
by its network/filesystem collaborators.  A small object-heap model of
`mutateStore` is used to state the copy-on-write property.
-/

namespace Dem

/-- JavaScript strings are modelled as lists of characters (one element per
code point; all inputs of interest are BMP text, where this agrees with
UTF-16 units). -/
abbrev Str := List Char

/-- Shorthand turning a Lean string literal into the `Str` embedding. -/
def str (s : String) : Str := s.data

/-- Lexicographic (code-unit) `≤` on strings: the order used by JavaScript
`Array.prototype.sort()` with the default comparator and by
`String.prototype.localeCompare` restricted to plain ASCII keys. -/
def lexLe : Str → Str → Bool
  | [], _ => true
  | _ :: _, [] => false
  | a :: as, b :: bs => if a < b then true else if b < a then false else lexLe as bs

/-- JavaScript `String.prototype.split` with a non-empty separator
`sc :: st`, as used at `mutations.ts` lines 66, 82, 184, 213, 230: scan
left to right, break at each non-overlapping occurrence of the separator.
`acc` holds the (reversed) characters of the current piece.  The `fuel`
argument makes the recursion structural; every call supplies at least the
length of the scanned string, so the fuel never runs out. -/
def splitGo (sc : Char) (st : Str) : Nat → Str → Str → List Str
  | _, [], acc => [acc.reverse]
  | 0, l, acc => [acc.reverse ++ l]
  | fuel + 1, c :: rest, acc =>
    if (sc :: st).isPrefixOf (c :: rest) then
      acc.reverse :: splitGo sc st fuel (rest.drop st.length) []
    else
      splitGo sc st fuel rest (c :: acc)

/-- JavaScript `String.prototype.split`.  The empty-separator case splits
into single characters (it is never reached by the embedded code because a
module identity always contains `://`). -/
def jsSplit (sep s : Str) : List Str :=
  match sep with
  | [] => s.map (fun c => [c])
  | sc :: st => splitGo sc st s.length s []

-- ### Data model (module.ts / store.ts are not under src/)

/-- Modelled from the spec: the `Module` record of `module.ts` (not under
`src/`): scheme, remote location, pinned version, and the ordered list of
linked file paths. -/
structure Module where
  protocol : Str
  path : Str
  version : Str
  files : List Str
deriving DecidableEq, Repr

/-- Modelled from the spec: `Module.toString` of `module.ts` (not under
`src/`) returns the canonical identity string `protocol://path`
(version and files excluded). -/
def Module.toStr (m : Module) : Str := m.protocol ++ str "://" ++ m.path

/-- Modelled from the spec: `moduleEquals` of `module.ts` (not under
`src/`): identity comparison by protocol and path, version-independent. -/
def moduleEquals (a b : Module) : Bool :=
  a.protocol == b.protocol && a.path == b.path

/-- Modelled from the spec: `compareModules` of `module.ts` (not under
`src/`) is a deterministic total order by protocol, then path.  `modLe`
is the reflexive order induced by that comparator (comparison result
at most 0). -/
def modLe (a b : Module) : Bool :=
  if lexLe a.protocol b.protocol then
    if lexLe b.protocol a.protocol then lexLe a.path b.path else true
  else false

/-- Modelled from the spec: `Store.config` of `store.ts` (not under
`src/`): the manifest root aggregate, a module list plus the alias map.
The JavaScript plain object `aliases` is embedded as an association list
in property insertion order. -/
structure Config where
  modules : List Module
  aliases : List (Str × Str)
deriving DecidableEq, Repr

/-- Modelled from the spec: the `Store` of `store.ts` (not under `src/`). -/
structure Store where
  config : Config
deriving DecidableEq, Repr

/-- Modelled from the spec: `duplicateStore` of `store.ts` (not under
`src/`) performs a structural copy — new arrays and maps, module fields
and file lists copied by value. -/
def duplicateStore (s : Store) : Store :=
  { config :=
    { modules := s.config.modules.map
        (fun m => { protocol := m.protocol, path := m.path,
                    version := m.version, files := m.files }),
      aliases := s.config.aliases.map (fun e => (e.1, e.2)) } }

/-- The action vocabulary of `actions.ts` (tagged union consumed read-only
by both phases). -/
inductive Action where
  | addModule (module : Module)
  | removeModule (moduleProtocol modulePath : Str)
  | addLink (link : Str)
  | removeLink (link : Str)
  | addAlias (aliasPath aliasTargetPath : Str)
  | removeAlias (aliasPath : Str)
  | updateModule (moduleProtocol modulePath moduleVersion : Str)
deriving DecidableEq, Repr

/-- The validation errors thrown by `mutateStore`, one constructor per
`throw` site, carrying the datum interpolated into the message. -/
inductive MutErr where
  | duplicateModule (m : Module)
  | removeModuleNotFound (url : Str)
  | addLinkModuleNotFound (link : Str)
  | removeLinkModuleNotFound (link : Str)
  | fileNotLinked (link : Str)
  | aliasExists (aliasPath : Str)
  | addAliasModuleNotFound (target : Str)
  | aliasNotFound (aliasPath : Str)
  | updateModuleNotFound (url : Str)
deriving DecidableEq, Repr

deriving instance DecidableEq for Except

-- ### JavaScript plain-object operations on the alias map

/-- Property read `aliases[key]` on a JavaScript object. -/
def getAlias : List (Str × Str) → Str → Option Str
  | [], _ => none
  | (k, v) :: rest, key => if k == key then some v else getAlias rest key

/-- JavaScript truthiness of an optional string: `undefined` and the empty
string are falsy, every other string truthy. -/
def truthy : Option Str → Bool
  | none => false
  | some v => !v.isEmpty

/-- Property write `aliases[key] = v` on a JavaScript object: an existing
key keeps its insertion position, a new key is appended. -/
def setAlias : List (Str × Str) → Str → Str → List (Str × Str)
  | [], key, v => [(key, v)]
  | (k, w) :: rest, key, v =>
    if k == key then (k, v) :: rest else (k, w) :: setAlias rest key v

/-- Property delete `delete aliases[key]` on a JavaScript object. -/
def delAlias (l : List (Str × Str)) (key : Str) : List (Str × Str) :=
  l.filter (fun e => !(e.1 == key))

/-- JavaScript `Object.fromEntries`: assign each entry in order into a
fresh object (a later duplicate key overwrites in place). -/
def fromEntries (l : List (Str × Str)) : List (Str × Str) :=
  l.foldl (fun acc e => setAlias acc e.1 e.2) []

-- ### State Mutator (mutateStore, mutations.ts lines 21-151)

/-- The working state of `mutateStore`: the duplicated store's `modules`
array (line 23) and the locally spread `aliases` object (line 24). -/
structure WState where
  modules : List Module
  aliases : List (Str × Str)
deriving DecidableEq, Repr

/-- The predicate `probe.startsWith(mod.toString())` of the ownership
`find` callbacks. -/
def ownsLink (probe : Str) (mod : Module) : Bool := mod.toStr.isPrefixOf probe

/-- The predicate `mod.protocol === moduleProtocol && mod.path ===
modulePath` of the `UPDATE_MODULE` `find` callbacks. -/
def exactMatch (moduleProtocol modulePath : Str) (mod : Module) : Bool :=
  mod.protocol == moduleProtocol && mod.path == modulePath

/-- Module-ownership resolution shared by all link/alias cases:
`modules.find((mod) => probe.startsWith(mod.toString()))`. -/
def findOwner (modules : List Module) (probe : Str) : Option Module :=
  modules.find? (ownsLink probe)

/-- File-path derivation `link.split(foundMod.toString())[1]`
(`mutations.ts` lines 66, 82, 184, 213, 230): the index-1 read of the
split result (the default is never used on the guarded calls, where the
identity occurs in the link so the split has at least two pieces). -/
def deriveFilePath (m : Module) (link : Str) : Str :=
  (jsSplit m.toStr link).getD 1 []

/-- Replace the first element satisfying `p` — the effect of mutating, in
place, the object returned by `Array.prototype.find`. -/
def updateFirst (p : Module → Bool) (f : Module → Module) : List Module → List Module
  | [] => []
  | x :: xs => if p x then f x :: xs else x :: updateFirst p f xs

/-- The in-place mutation of the `ADD_LINK` case (`mutations.ts` lines
67-70): push the file path unless already present. -/
def addLinkUpdate (filePath : Str) (mod : Module) : Module :=
  if mod.files.contains filePath then mod
  else { mod with files := mod.files ++ [filePath] }

/-- The in-place mutation of the `REMOVE_LINK` case (`mutations.ts` line
87): splice out the first occurrence of the file path. -/
def removeLinkUpdate (filePath : Str) (mod : Module) : Module :=
  { mod with files := mod.files.erase filePath }

/-- The in-place mutation of the `UPDATE_MODULE` case (`mutations.ts`
line 131): overwrite the version. -/
def setVersion (moduleVersion : Str) (mod : Module) : Module :=
  { mod with version := moduleVersion }

/-- One iteration of the `for (const action of actions)` switch of
`mutateStore` (`mutations.ts` lines 25-135). -/
def applyAction (st : WState) (a : Action) : Except MutErr WState :=
  match a with
  | .addModule module =>
    if st.modules.any (fun mod => moduleEquals mod module) then
      .error (.duplicateModule module)
    else
      .ok { st with modules := st.modules ++ [module] }
  | .removeModule moduleProtocol modulePath =>
    let urlStr := moduleProtocol ++ str "://" ++ modulePath
    match st.modules.findIdx? (ownsLink urlStr) with
    | none => .error (.removeModuleNotFound urlStr)
    | some i => .ok { st with modules := st.modules.eraseIdx i }
  | .addLink link =>
    match findOwner st.modules link with
    | none => .error (.addLinkModuleNotFound link)
    | some foundMod =>
      let filePath := deriveFilePath foundMod link
      .ok { st with modules := updateFirst (ownsLink link) (addLinkUpdate filePath) st.modules }
  | .removeLink link =>
    match findOwner st.modules link with
    | none => .error (.removeLinkModuleNotFound link)
    | some foundMod =>
      let filePath := deriveFilePath foundMod link
      if foundMod.files.contains filePath then
        let newModules := updateFirst (ownsLink link) (removeLinkUpdate filePath) st.modules
        .ok { st with modules := newModules }
      else .error (.fileNotLinked link)
  | .addAlias aliasPath aliasTargetPath =>
    if truthy (getAlias st.aliases aliasPath) then
      .error (.aliasExists aliasPath)
    else
      match findOwner st.modules aliasTargetPath with
      | none => .error (.addAliasModuleNotFound aliasTargetPath)
      | some _ => .ok { st with aliases := setAlias st.aliases aliasPath aliasTargetPath }
  | .removeAlias aliasPath =>
    if truthy (getAlias st.aliases aliasPath) then
      .ok { st with aliases := delAlias st.aliases aliasPath }
    else
      .error (.aliasNotFound aliasPath)
  | .updateModule moduleProtocol modulePath moduleVersion =>
    match st.modules.find? (exactMatch moduleProtocol modulePath) with
    | none => .error (.updateModuleNotFound (moduleProtocol ++ str "://" ++ modulePath))
    | some _ =>
      let newModules :=
        updateFirst (exactMatch moduleProtocol modulePath) (setVersion moduleVersion) st.modules
      .ok { st with modules := newModules }

/-- The action loop of `mutateStore`, stopping at the first throw. -/
def applyActions (st : WState) : List Action → Except MutErr WState
  | [] => .ok st
  | a :: rest =>
    match applyAction st a with
    | .ok st' => applyActions st' rest
    | .error e => .error e

/-- The order `compareModules(a, b) <= 0` as a proposition. -/
def ModLe (a b : Module) : Prop := modLe a b = true

instance : DecidableRel ModLe := fun a b => instDecidableEqBool (modLe a b) true

/-- Code-unit string order as a proposition (default `sort()` comparator
and `localeCompare`, restricted to code-unit order). -/
def StrLe (a b : Str) : Prop := lexLe a b = true

instance : DecidableRel StrLe := fun a b => instDecidableEqBool (lexLe a b) true

/-- Alias entries ordered by key (`mutations.ts` lines 145-147). -/
def EntryLe (a b : Str × Str) : Prop := lexLe a.1 b.1 = true

instance : DecidableRel EntryLe := fun a b => instDecidableEqBool (lexLe a.1 b.1) true

/-- In-place `mod.files.sort()` (`mutations.ts` lines 139-141).  JavaScript
`Array.prototype.sort` is a stable sort; it is embedded as the stable
`List.insertionSort` (any two stable sorts agree). -/
def sortFilesOfModule (m : Module) : Module :=
  { m with files := m.files.insertionSort StrLe }

/-- `mutateStore` (`mutations.ts` lines 21-151): duplicate the store,
apply the actions to the copy, then the post-pass — stable sort of
`modules` by `compareModules` (line 138), in-place sort of each module's
`files` (lines 139-141), and rebuild of `aliases` from its entries sorted
by key (lines 144-148). -/
def mutateStore (store : Store) (actions : List Action) : Except MutErr Store :=
  let s := duplicateStore store
  match applyActions { modules := s.config.modules, aliases := s.config.aliases } actions with
  | .error e => .error e
  | .ok st =>
    let sortedModules := (st.modules.insertionSort ModLe).map sortFilesOfModule
    let aliasesEntries := st.aliases.insertionSort EntryLe
    .ok { config := { modules := sortedModules, aliases := fromEntries aliasesEntries } }

-- ### Repository Synchronizer (mutateRepository, mutations.ts lines 155-296)

/-- `const vendorDirectoryPath = "vendor"` (`mutations.ts` line 18). -/
def vendorDirectoryPath : Str := str "vendor"

/-- Modelled from the spec: `createURL` of `net.ts` (not under `src/`) is
a pure function composing protocol, path, version and file path into the
canonical fetch URL. -/
def createURL (protocol path version filePath : Str) : Str :=
  protocol ++ str "://" ++ path ++ str "@" ++ version ++ filePath

/-- Modelled from the spec: `path.join` of the vendored `std/path` (not
under `src/`), restricted to its use at `mutations.ts` lines 232-237:
joins the four segments with `/` separators. -/
def joinPath (a b c d : Str) : Str :=
  a ++ str "/" ++ b ++ str "/" ++ c ++ str "/" ++ d

/-- One call to the persistence collaborator (`Repository`, not under
`src/`; interface modelled from the spec), recorded as an event. -/
inductive RepoCall where
  | removeModule (protocol path : Str)
  | addLink (protocol path version filePath : Str) (hasDefault : Bool)
  | removeLink (protocol path filePath : Str)
  | addAlias (protocol path filePath aliasPath : Str) (hasDefault : Bool)
  | removeAlias (aliasPath : Str)
  | updateLink (protocol path version filePath : Str) (hasDefault : Bool)
deriving DecidableEq, Repr

/-- The observable trace of `mutateRepository`: export inspections
(network and local) and persistence-collaborator calls, in order. -/
inductive SyncEvent where
  | remoteInspect (url : Str)
  | localInspect (path : Str)
  | call (c : RepoCall)
deriving DecidableEq, Repr

/-- Whether an event is a network export inspection. -/
def SyncEvent.isRemoteInspect : SyncEvent → Bool
  | .remoteInspect _ => true
  | _ => false

/-- Whether an event is an `updateLink` persistence call. -/
def SyncEvent.isUpdateLinkCall : SyncEvent → Bool
  | .call (.updateLink _ _ _ _ _) => true
  | _ => false

/-- Errors of the Synchronizer: one constructor per module-resolution
`throw` site, plus propagated export-inspection failures. -/
inductive SyncErr where
  | addLinkModuleNotFound (link : Str)
  | removeLinkModuleNotFound (link : Str)
  | addAliasModuleNotFound (target : Str)
  | updateModuleNotFound (url : Str)
  | inspectFailed (msg : Str)
deriving DecidableEq, Repr

/-- Whether a Synchronizer error comes from one of the four
module-resolution `throw` branches (`mutations.ts` lines 181, 209, 225,
272). -/
def SyncErr.isModuleNotFound : SyncErr → Bool
  | .addLinkModuleNotFound _ => true
  | .removeLinkModuleNotFound _ => true
  | .addAliasModuleNotFound _ => true
  | .updateModuleNotFound _ => true
  | .inspectFailed _ => false

/-- Failures of `hasDefaultExportLocal` (`ast.ts`, not under `src/`):
a `Deno.errors.NotFound` is distinguished because `mutateRepository`
recovers from it (`mutations.ts` lines 240-247). -/
inductive LocalErr where
  | notFound
  | other (msg : Str)
deriving DecidableEq, Repr

/-- Whether `e instanceof Deno.errors.NotFound` (`mutations.ts` line 243). -/
def LocalErr.isNotFound : LocalErr → Bool
  | .notFound => true
  | .other _ => false

/-- The inner loop of the `UPDATE_MODULE` case (`mutations.ts` lines
275-291): one remote export inspection and one `updateLink` call per
linked file, in file order. -/
def syncUpdateFiles (remote : Str → Except Str Bool)
    (moduleProtocol modulePath moduleVersion : Str) :
    List Str → Except SyncErr (List SyncEvent)
  | [] => .ok []
  | filePath :: rest =>
    let url := createURL moduleProtocol modulePath moduleVersion filePath
    match remote url with
    | .error msg => .error (.inspectFailed msg)
    | .ok hasDefault =>
      match syncUpdateFiles remote moduleProtocol modulePath moduleVersion rest with
      | .error e => .error e
      | .ok evs =>
        .ok (.remoteInspect url ::
          .call (.updateLink moduleProtocol modulePath moduleVersion filePath hasDefault) :: evs)

/-- One iteration of the `for (const action of actions)` switch of
`mutateRepository` (`mutations.ts` lines 161-295), producing the events
of that action.  `remote` is `hasDefaultExportRemote` and `localIns` is
`hasDefaultExportLocal` (`ast.ts`, not under `src/`, modelled as
oracles); persistence-collaborator calls are recorded in the trace. -/
def syncAction (remote : Str → Except Str Bool) (localIns : Str → Except LocalErr Bool)
    (modules : List Module) (a : Action) : Except SyncErr (List SyncEvent) :=
  match a with
  | .addModule _ => .ok []
  | .removeModule moduleProtocol modulePath =>
    .ok [.call (.removeModule moduleProtocol modulePath)]
  | .addLink link =>
    match findOwner modules link with
    | none => .error (.addLinkModuleNotFound link)
    | some foundMod =>
      let filePath := deriveFilePath foundMod link
      let url := createURL foundMod.protocol foundMod.path foundMod.version filePath
      match remote url with
      | .error msg => .error (.inspectFailed msg)
      | .ok hasDefault =>
        .ok [.remoteInspect url,
          .call (.addLink foundMod.protocol foundMod.path foundMod.version filePath hasDefault)]
  | .removeLink link =>
    match findOwner modules link with
    | none => .error (.removeLinkModuleNotFound link)
    | some foundMod =>
      let filePath := deriveFilePath foundMod link
      .ok [.call (.removeLink foundMod.protocol foundMod.path filePath)]
  | .addAlias aliasPath aliasTargetPath =>
    match findOwner modules aliasTargetPath with
    | none => .error (.addAliasModuleNotFound aliasTargetPath)
    | some foundMod =>
      let linkedFilePath := deriveFilePath foundMod aliasTargetPath
      let fp := joinPath vendorDirectoryPath foundMod.protocol foundMod.path linkedFilePath
      match localIns fp with
      | .error (.other msg) => .error (.inspectFailed msg)
      | .error .notFound =>
        .ok [.localInspect fp,
          .call (.addAlias foundMod.protocol foundMod.path linkedFilePath aliasPath false)]
      | .ok hasDefault =>
        .ok [.localInspect fp,
          .call (.addAlias foundMod.protocol foundMod.path linkedFilePath aliasPath hasDefault)]
  | .removeAlias aliasPath =>
    .ok [.call (.removeAlias aliasPath)]
  | .updateModule moduleProtocol modulePath moduleVersion =>
    match modules.find? (exactMatch moduleProtocol modulePath) with
    | none => .error (.updateModuleNotFound (moduleProtocol ++ str "://" ++ modulePath))
    | some foundMod =>
      syncUpdateFiles remote moduleProtocol modulePath moduleVersion foundMod.files

/-- `mutateRepository` (`mutations.ts` lines 155-296): replay the actions
in caller order against the collaborators, resolving module ownership in
the supplied (post-mutation) manifest; the first failure aborts the rest
of the batch. -/
def mutateRepository (remote : Str → Except Str Bool)
    (localIns : Str → Except LocalErr Bool) (store : Store) :
    List Action → Except SyncErr (List SyncEvent)
  | [] => .ok []
  | a :: rest =>
    match syncAction remote localIns store.config.modules a with
    | .error e => .error e
    | .ok evs =>
      match mutateRepository remote localIns store rest with
      | .error e => .error e
      | .ok evs' => .ok (evs ++ evs')

/-- Whether an action is a RemoveModule. -/
def Action.isRemoveModule : Action → Bool
  | .removeModule _ _ => true
  | _ => false

/-- The identity key (protocol, path) of a module, which determines its
identity string and its behaviour under both resolution predicates. -/
def modKey (m : Module) : Str × Str := (m.protocol, m.path)

/-- The module-resolution obligation of an action in the Synchronizer:
the modules that its `find` calls look for exist. -/
def SyncResolves (modules : List Module) : Action → Prop
  | .addLink link => ∃ m ∈ modules, ownsLink link m = true
  | .removeLink link => ∃ m ∈ modules, ownsLink link m = true
  | .addAlias _ aliasTargetPath => ∃ m ∈ modules, ownsLink aliasTargetPath m = true
  | .updateModule moduleProtocol modulePath _ =>
    ∃ m ∈ modules, exactMatch moduleProtocol modulePath m = true
  | _ => True

-- ### Object-heap model of the State Mutator
--
-- The copy-on-write contract of `mutateStore` is a statement about
-- JavaScript object mutation, so it is stated over an explicit heap of
-- objects: the caller's store is an object graph, `duplicateStore`
-- allocates a structural copy, and every in-place mutation of the source
-- (`modules.push`, `modules.splice`, `foundMod.files.push`,
-- `foundMod.files.splice`, `foundMod.version = ...`,
-- `s.config.aliases = ...`) is a write to an allocated location.

/-- A JavaScript heap object of the manifest graph. -/
inductive Cell where
  | strArr (elems : List Str)
  | modObj (protocol path version : Str) (filesLoc : Nat)
  | modArr (elems : List Nat)
  | aliasObj (entries : List (Str × Str))
  | configObj (modulesLoc aliasesLoc : Nat)
  | storeObj (configLoc : Nat)
deriving DecidableEq, Repr

/-- A heap: an allocation bound and the allocated objects. -/
structure Heap where
  next : Nat
  cells : Nat → Option Cell

/-- Allocation of a fresh object. -/
def halloc (h : Heap) (c : Cell) : Nat × Heap :=
  (h.next, { next := h.next + 1,
             cells := fun l => if l = h.next then some c else h.cells l })

/-- In-place mutation of an existing object. -/
def hwrite (h : Heap) (l : Nat) (c : Cell) : Heap :=
  { h with cells := fun l' => if l' = l then some c else h.cells l' }

/-- Failure of the heap machine: a validation throw of `mutateStore`, or
an access to a location that does not hold an object of the needed shape
(never reached from a well-formed store graph). -/
inductive HErr where
  | mut (e : MutErr)
  | fault
deriving DecidableEq, Repr

/-- The fields of a module object, with its files array by reference. -/
structure ModRef where
  protocol : Str
  path : Str
  version : Str
  filesLoc : Nat
deriving DecidableEq, Repr

/-- `Module.toString` read from a module object. -/
def ModRef.toStr (mr : ModRef) : Str := mr.protocol ++ str "://" ++ mr.path

/-- `moduleEquals` between a module object and an action payload. -/
def moduleEqualsR (mr : ModRef) (m : Module) : Bool :=
  mr.protocol == m.protocol && mr.path == m.path

/-- `compareModules(a, b) <= 0` between module objects. -/
def modLeR (a b : ModRef) : Bool :=
  if lexLe a.protocol b.protocol then
    if lexLe b.protocol a.protocol then lexLe a.path b.path else true
  else false

/-- Stable-sort order on (location, object) pairs of the modules array. -/
def PairLe (a b : Nat × ModRef) : Prop := modLeR a.2 b.2 = true

instance : DecidableRel PairLe := fun a b => instDecidableEqBool (modLeR a.2 b.2) true

/-- Read a store object. -/
def readStoreP (h : Heap) (l : Nat) : Option Nat :=
  match h.cells l with
  | some (.storeObj configLoc) => some configLoc
  | _ => none

/-- Read a config object. -/
def readConfigP (h : Heap) (l : Nat) : Option (Nat × Nat) :=
  match h.cells l with
  | some (.configObj modulesLoc aliasesLoc) => some (modulesLoc, aliasesLoc)
  | _ => none

/-- Read a modules array. -/
def readModArrP (h : Heap) (l : Nat) : Option (List Nat) :=
  match h.cells l with
  | some (.modArr elems) => some elems
  | _ => none

/-- Read a module object. -/
def readModObjP (h : Heap) (l : Nat) : Option ModRef :=
  match h.cells l with
  | some (.modObj protocol path version filesLoc) =>
    some { protocol := protocol, path := path, version := version, filesLoc := filesLoc }
  | _ => none

/-- Read a files array. -/
def readStrArrP (h : Heap) (l : Nat) : Option (List Str) :=
  match h.cells l with
  | some (.strArr elems) => some elems
  | _ => none

/-- Read an aliases object. -/
def readAliasObjP (h : Heap) (l : Nat) : Option (List (Str × Str)) :=
  match h.cells l with
  | some (.aliasObj entries) => some entries
  | _ => none

/-- Read the (location, object) pairs of a modules array's elements. -/
def readModPairsP (h : Heap) : List Nat → Option (List (Nat × ModRef))
  | [] => some []
  | ml :: rest =>
    match readModObjP h ml with
    | none => none
    | some mr =>
      match readModPairsP h rest with
      | none => none
      | some prs => some ((ml, mr) :: prs)

/-- Copy one module object (fresh files array, fresh module object) —
part of the structural copy of `duplicateStore` (spec §3 lifecycle). -/
def dupModuleH (h : Heap) (ml : Nat) : Option Nat × Heap :=
  match readModObjP h ml with
  | none => (none, h)
  | some mr =>
    match readStrArrP h mr.filesLoc with
    | none => (none, h)
    | some files =>
      let p1 := halloc h (.strArr files)
      let p2 := halloc p1.2 (.modObj mr.protocol mr.path mr.version p1.1)
      (some p2.1, p2.2)

/-- Copy every module object of the array. -/
def dupModulesH (h : Heap) : List Nat → Option (List Nat) × Heap
  | [] => (some [], h)
  | ml :: rest =>
    match dupModuleH h ml with
    | (none, h1) => (none, h1)
    | (some ml', h1) =>
      match dupModulesH h1 rest with
      | (none, h2) => (none, h2)
      | (some rest', h2) => (some (ml' :: rest'), h2)

/-- Modelled from the spec: `duplicateStore` of `store.ts` (not under
`src/`) on the heap — a structural copy of the caller's store graph:
new module objects and file arrays, a new modules array, a new aliases
object, a new config and store object. -/
def duplicateStoreH (h : Heap) (storeLoc : Nat) : Option Nat × Heap :=
  match readStoreP h storeLoc with
  | none => (none, h)
  | some configLoc =>
    match readConfigP h configLoc with
    | none => (none, h)
    | some (modulesLoc, aliasesLoc) =>
      match readModArrP h modulesLoc with
      | none => (none, h)
      | some mls =>
        match dupModulesH h mls with
        | (none, h1) => (none, h1)
        | (some mls', h1) =>
          match readAliasObjP h1 aliasesLoc with
          | none => (none, h1)
          | some entries =>
            let pm := halloc h1 (.modArr mls')
            let pa := halloc pm.2 (.aliasObj entries)
            let pc := halloc pa.2 (.configObj pm.1 pa.1)
            let ps := halloc pc.2 (.storeObj pc.1)
            (some ps.1, ps.2)

/-- One iteration of the action switch of `mutateStore` on the heap
(`mutations.ts` lines 25-135).  `modulesLoc` is the array destructured at
line 23; the locally spread `aliases` object (line 24) is threaded as a
value, since it is a fresh object that never escapes before line 148. -/
def applyActionH (h : Heap) (modulesLoc : Nat) (aliases : List (Str × Str)) :
    Action → Except HErr (List (Str × Str)) × Heap
  | .addModule module =>
    match readModArrP h modulesLoc with
    | none => (.error .fault, h)
    | some mls =>
      match readModPairsP h mls with
      | none => (.error .fault, h)
      | some prs =>
        if prs.any (fun pr => moduleEqualsR pr.2 module) then
          (.error (.mut (.duplicateModule module)), h)
        else
          let pf := halloc h (.strArr module.files)
          let pm := halloc pf.2 (.modObj module.protocol module.path module.version pf.1)
          (.ok aliases, hwrite pm.2 modulesLoc (.modArr (mls ++ [pm.1])))
  | .removeModule moduleProtocol modulePath =>
    let urlStr := moduleProtocol ++ str "://" ++ modulePath
    match readModArrP h modulesLoc with
    | none => (.error .fault, h)
    | some mls =>
      match readModPairsP h mls with
      | none => (.error .fault, h)
      | some prs =>
        match prs.findIdx? (fun pr => pr.2.toStr.isPrefixOf urlStr) with
        | none => (.error (.mut (.removeModuleNotFound urlStr)), h)
        | some i => (.ok aliases, hwrite h modulesLoc (.modArr (mls.eraseIdx i)))
  | .addLink link =>
    match readModArrP h modulesLoc with
    | none => (.error .fault, h)
    | some mls =>
      match readModPairsP h mls with
      | none => (.error .fault, h)
      | some prs =>
        match prs.find? (fun pr => pr.2.toStr.isPrefixOf link) with
        | none => (.error (.mut (.addLinkModuleNotFound link)), h)
        | some pr =>
          let filePath := (jsSplit pr.2.toStr link).getD 1 []
          match readStrArrP h pr.2.filesLoc with
          | none => (.error .fault, h)
          | some files =>
            if files.contains filePath then (.ok aliases, h)
            else (.ok aliases, hwrite h pr.2.filesLoc (.strArr (files ++ [filePath])))
  | .removeLink link =>
    match readModArrP h modulesLoc with
    | none => (.error .fault, h)
    | some mls =>
      match readModPairsP h mls with
      | none => (.error .fault, h)
      | some prs =>
        match prs.find? (fun pr => pr.2.toStr.isPrefixOf link) with
        | none => (.error (.mut (.removeLinkModuleNotFound link)), h)
        | some pr =>
          let filePath := (jsSplit pr.2.toStr link).getD 1 []
          match readStrArrP h pr.2.filesLoc with
          | none => (.error .fault, h)
          | some files =>
            if files.contains filePath then
              (.ok aliases, hwrite h pr.2.filesLoc (.strArr (files.erase filePath)))
            else (.error (.mut (.fileNotLinked link)), h)
  | .addAlias aliasPath aliasTargetPath =>
    if truthy (getAlias aliases aliasPath) then
      (.error (.mut (.aliasExists aliasPath)), h)
    else
      match readModArrP h modulesLoc with
      | none => (.error .fault, h)
      | some mls =>
        match readModPairsP h mls with
        | none => (.error .fault, h)
        | some prs =>
          match prs.find? (fun pr => pr.2.toStr.isPrefixOf aliasTargetPath) with
          | none => (.error (.mut (.addAliasModuleNotFound aliasTargetPath)), h)
          | some _ => (.ok (setAlias aliases aliasPath aliasTargetPath), h)
  | .removeAlias aliasPath =>
    if truthy (getAlias aliases aliasPath) then
      (.ok (delAlias aliases aliasPath), h)
    else
      (.error (.mut (.aliasNotFound aliasPath)), h)
  | .updateModule moduleProtocol modulePath moduleVersion =>
    match readModArrP h modulesLoc with
    | none => (.error .fault, h)
    | some mls =>
      match readModPairsP h mls with
      | none => (.error .fault, h)
      | some prs =>
        match prs.find? (fun pr => pr.2.protocol == moduleProtocol && pr.2.path == modulePath) with
        | none =>
          (.error (.mut (.updateModuleNotFound (moduleProtocol ++ str "://" ++ modulePath))), h)
        | some pr =>
          (.ok aliases,
            hwrite h pr.1 (.modObj pr.2.protocol pr.2.path moduleVersion pr.2.filesLoc))

/-- The action loop of `mutateStore` on the heap. -/
def applyActionsH (h : Heap) (modulesLoc : Nat) (aliases : List (Str × Str)) :
    List Action → Except HErr (List (Str × Str)) × Heap
  | [] => (.ok aliases, h)
  | a :: rest =>
    match applyActionH h modulesLoc aliases a with
    | (.error e, h1) => (.error e, h1)
    | (.ok aliases1, h1) => applyActionsH h1 modulesLoc aliases1 rest

/-- In-place `mod.files.sort()` for each module of the sorted array
(`mutations.ts` lines 139-141). -/
def sortFilesH (h : Heap) : List Nat → Except HErr Unit × Heap
  | [] => (.ok (), h)
  | ml :: rest =>
    match readModObjP h ml with
    | none => (.error .fault, h)
    | some mr =>
      match readStrArrP h mr.filesLoc with
      | none => (.error .fault, h)
      | some files =>
        sortFilesH (hwrite h mr.filesLoc (.strArr (files.insertionSort StrLe))) rest

/-- `mutateStore` on the heap (`mutations.ts` lines 21-151): duplicate
the caller's store graph, destructure the copy, run the action loop, then
the post-pass — in-place stable sort of the modules array by
`compareModules`, in-place sort of each files array, and assignment of a
rebuilt aliases object to the copy's config. -/
def mutateStoreH (h : Heap) (storeLoc : Nat) (actions : List Action) :
    Except HErr Nat × Heap :=
  match duplicateStoreH h storeLoc with
  | (none, h1) => (.error .fault, h1)
  | (some sLoc, h1) =>
    match readStoreP h1 sLoc with
    | none => (.error .fault, h1)
    | some configLoc =>
      match readConfigP h1 configLoc with
      | none => (.error .fault, h1)
      | some (modulesLoc, aliasesLoc) =>
        match readAliasObjP h1 aliasesLoc with
        | none => (.error .fault, h1)
        | some entries0 =>
          let aliases0 := entries0.map (fun e => (e.1, e.2))
          match applyActionsH h1 modulesLoc aliases0 actions with
          | (.error e, h2) => (.error e, h2)
          | (.ok aliases1, h2) =>
            match readModArrP h2 modulesLoc with
            | none => (.error .fault, h2)
            | some mls =>
              match readModPairsP h2 mls with
              | none => (.error .fault, h2)
              | some prs =>
                let sorted := prs.insertionSort PairLe
                let h3 := hwrite h2 modulesLoc (.modArr (sorted.map (fun pr => pr.1)))
                match sortFilesH h3 (sorted.map (fun pr => pr.1)) with
                | (.error e, h4) => (.error e, h4)
                | (.ok _, h4) =>
                  let newAliases := fromEntries (aliases1.insertionSort EntryLe)
                  let pa := halloc h4 (.aliasObj newAliases)
                  (.ok sLoc, hwrite pa.2 configLoc (.configObj modulesLoc pa.1))

/-- Read one module's value (fields plus files list) out of the heap. -/
def readModuleValueP (h : Heap) (ml : Nat) : Option Module :=
  match readModObjP h ml with
  | none => none
  | some mr =>
    match readStrArrP h mr.filesLoc with
    | none => none
    | some files =>
      some { protocol := mr.protocol, path := mr.path, version := mr.version, files := files }

/-- Read the values of all modules of an array. -/
def readModuleValuesP (h : Heap) : List Nat → Option (List Module)
  | [] => some []
  | ml :: rest =>
    match readModuleValueP h ml with
    | none => none
    | some m =>
      match readModuleValuesP h rest with
      | none => none
      | some ms => some (m :: ms)

/-- Heap `h'` agrees with `h` on every location below `n₀` and has not
shrunk its allocation bound: the frame property of one step of the
mutator relative to the locations that existed before the call. -/
def FrameBelow (n₀ : Nat) (h h' : Heap) : Prop :=
  (∀ l, l < n₀ → h'.cells l = h.cells l) ∧ h.next ≤ h'.next

/-- Every location in the list is at or above `n₀`, and so is the files
array of any module object stored there: the targets of in-place file
mutations are copies, never caller objects. -/
def GoodList (n₀ : Nat) (h : Heap) (locs : List Nat) : Prop :=
  ∀ ml ∈ locs, n₀ ≤ ml ∧
    ∀ p pa v fl, h.cells ml = some (.modObj p pa v fl) → n₀ ≤ fl

/-- The modules array of the duplicated store and everything the action
loop writes through it lie at or above `n₀` (the caller's allocation
bound at entry). -/
def ModLocsOk (n₀ : Nat) (h : Heap) (modulesLoc : Nat) : Prop :=
  n₀ ≤ modulesLoc ∧
  ∀ mls, h.cells modulesLoc = some (.modArr mls) → GoodList n₀ h mls

/-- Read the whole manifest value rooted at a store object. -/
def readStoreValueP (h : Heap) (storeLoc : Nat) : Option Store :=
  match readStoreP h storeLoc with
  | none => none
  | some configLoc =>
    match readConfigP h configLoc with
    | none => none
    | some (modulesLoc, aliasesLoc) =>
      match readModArrP h modulesLoc with
      | none => none
      | some mls =>
        match readModuleValuesP h mls with
        | none => none
        | some modules =>
          match readAliasObjP h aliasesLoc with
          | none => none
          | some entries =>
            some { config := { modules := modules, aliases := entries } }

/-- A concrete four-cell caller heap holding an empty manifest:
a store object pointing at a config object, whose modules array and
aliases object are empty. -/
def exampleHeap : Heap :=
  { next := 4,
    cells := fun l =>
      match l with
      | 0 => some (.storeObj 1)
      | 1 => some (.configObj 2 3)
      | 2 => some (.modArr [])
      | 3 => some (.aliasObj [])
      | _ => none }

-- ### Order lemmas

theorem lexLe_refl (a : Str) : lexLe a a = true := by
  induction a with
  | nil => rfl
  | cons c cs ih => simp [lexLe, lt_irrefl, ih]

theorem lexLe_total (a b : Str) : lexLe a b = true ∨ lexLe b a = true := by
  induction a generalizing b with
  | nil => left; rfl
  | cons c cs ih =>
    cases b with
    | nil => right; rfl
    | cons d ds =>
      by_cases h : c < d
      · left; simp [lexLe, h]
      · by_cases h' : d < c
        · right; simp [lexLe, h']
        · have hcd : c = d := le_antisymm (not_lt.mp h') (not_lt.mp h)
          subst hcd
          rcases ih ds with h1 | h1
          · left; simp [lexLe, lt_irrefl, h1]
          · right; simp [lexLe, lt_irrefl, h1]

theorem lexLe_trans {a b c : Str} (h1 : lexLe a b = true) (h2 : lexLe b c = true) :
    lexLe a c = true := by
  induction a generalizing b c with
  | nil => rfl
  | cons x xs ih =>
    cases b with
    | nil => simp [lexLe] at h1
    | cons y ys =>
      cases c with
      | nil => simp [lexLe] at h2
      | cons z zs =>
        simp only [lexLe] at h1 h2 ⊢
        by_cases hxy : x < y
        · by_cases hyz : y < z
          · simp [lt_trans hxy hyz]
          · by_cases hzy : z < y
            · simp [hyz, hzy] at h2
            · have hyzeq : y = z := le_antisymm (not_lt.mp hzy) (not_lt.mp hyz)
              subst hyzeq
              simp [hxy]
        · by_cases hyx : y < x
          · simp [hxy, hyx] at h1
          · have hxyeq : x = y := le_antisymm (not_lt.mp hyx) (not_lt.mp hxy)
            subst hxyeq
            by_cases hxz : x < z
            · simp [hxz]
            · by_cases hzx : z < x
              · simp [hxz, hzx] at h2
              · have hxzeq : x = z := le_antisymm (not_lt.mp hzx) (not_lt.mp hxz)
                subst hxzeq
                simp only [lt_irrefl, if_false] at h1 h2 ⊢
                exact ih h1 h2

theorem lexLe_antisymm {a b : Str} (h1 : lexLe a b = true) (h2 : lexLe b a = true) :
    a = b := by
  induction a generalizing b with
  | nil =>
    cases b with
    | nil => rfl
    | cons d ds => simp [lexLe] at h2
  | cons c cs ih =>
    cases b with
    | nil => simp [lexLe] at h1
    | cons d ds =>
      simp only [lexLe] at h1 h2
      by_cases h : c < d
      · simp [h, asymm h] at h2
      · by_cases h' : d < c
        · simp [h, h'] at h1
        · have hcd : c = d := le_antisymm (not_lt.mp h') (not_lt.mp h)
          subst hcd
          simp only [lt_irrefl, if_false] at h1 h2
          exact congrArg (c :: ·) (ih h1 h2)

instance : IsTotal Str StrLe := ⟨lexLe_total⟩

instance : IsTrans Str StrLe := ⟨fun _ _ _ => lexLe_trans⟩

theorem modLe_iff {a b : Module} :
    modLe a b = true ↔
      (lexLe a.protocol b.protocol = true ∧
        (lexLe b.protocol a.protocol = true → lexLe a.path b.path = true)) := by
  unfold modLe
  by_cases h1 : lexLe a.protocol b.protocol = true
  · by_cases h2 : lexLe b.protocol a.protocol = true
    · simp [h1, h2]
    · simp [h1, h2]
  · simp [h1]

theorem modLe_total (a b : Module) : ModLe a b ∨ ModLe b a := by
  unfold ModLe
  rcases lexLe_total a.protocol b.protocol with h | h
  · by_cases h' : lexLe b.protocol a.protocol = true
    · rcases lexLe_total a.path b.path with hp | hp
      · left; exact modLe_iff.mpr ⟨h, fun _ => hp⟩
      · right; exact modLe_iff.mpr ⟨h', fun _ => hp⟩
    · left; exact modLe_iff.mpr ⟨h, fun hc => absurd hc h'⟩
  · by_cases h' : lexLe a.protocol b.protocol = true
    · rcases lexLe_total a.path b.path with hp | hp
      · left; exact modLe_iff.mpr ⟨h', fun _ => hp⟩
      · right; exact modLe_iff.mpr ⟨h, fun _ => hp⟩
    · right; exact modLe_iff.mpr ⟨h, fun hc => absurd hc h'⟩

theorem modLe_trans {a b c : Module} (h1 : ModLe a b) (h2 : ModLe b c) : ModLe a c := by
  unfold ModLe at h1 h2 ⊢
  rcases modLe_iff.mp h1 with ⟨hp1, hq1⟩
  rcases modLe_iff.mp h2 with ⟨hp2, hq2⟩
  refine modLe_iff.mpr ⟨lexLe_trans hp1 hp2, fun hca => ?_⟩
  have hba : lexLe b.protocol a.protocol = true := lexLe_trans hp2 hca
  have hcb : lexLe c.protocol b.protocol = true := lexLe_trans hca hp1
  exact lexLe_trans (hq1 hba) (hq2 hcb)

instance : IsTotal Module ModLe := ⟨modLe_total⟩

instance : IsTrans Module ModLe := ⟨fun _ _ _ => modLe_trans⟩

instance : IsTotal (Str × Str) EntryLe :=
  ⟨fun a b => lexLe_total a.1 b.1⟩

instance : IsTrans (Str × Str) EntryLe :=
  ⟨fun _ _ _ h1 h2 => lexLe_trans h1 h2⟩

-- ### Alias-map lemmas

theorem setAlias_mem {l : List (Str × Str)} {key v : Str} {y : Str × Str}
    (hy : y ∈ setAlias l key v) : y ∈ l ∨ y = (key, v) := by
  induction l with
  | nil =>
    right
    simpa [setAlias] using hy
  | cons e rest ih =>
    obtain ⟨a, b⟩ := e
    simp only [setAlias] at hy
    by_cases hak : (a == key) = true
    · rw [if_pos hak] at hy
      have ha : a = key := by simpa using hak
      rcases List.mem_cons.mp hy with h | h
      · right; rw [h, ha]
      · left; exact List.mem_cons_of_mem _ h
    · rw [if_neg hak] at hy
      rcases List.mem_cons.mp hy with h | h
      · left; rw [h]; exact List.mem_cons_self _ _
      · rcases ih h with h' | h'
        · left; exact List.mem_cons_of_mem _ h'
        · right; exact h'

theorem setAlias_pairwise {l : List (Str × Str)} {key v : Str}
    (hl : List.Pairwise EntryLe l) (hub : ∀ x ∈ l, EntryLe x (key, v)) :
    List.Pairwise EntryLe (setAlias l key v) := by
  induction l with
  | nil => simp [setAlias]
  | cons e rest ih =>
    obtain ⟨a, b⟩ := e
    rcases List.pairwise_cons.mp hl with ⟨hrel, hrest⟩
    simp only [setAlias]
    by_cases hak : (a == key) = true
    · rw [if_pos hak]
      refine List.pairwise_cons.mpr ⟨?_, hrest⟩
      intro y hy
      exact hrel y hy
    · rw [if_neg hak]
      refine List.pairwise_cons.mpr ⟨?_, ih hrest ?_⟩
      · intro y hy
        rcases setAlias_mem hy with h' | h'
        · exact hrel y h'
        · rw [h']
          exact hub (a, b) (List.mem_cons_self _ _)
      · intro x hx
        exact hub x (List.mem_cons_of_mem _ hx)

theorem foldl_setAlias_pairwise :
    ∀ (entries acc : List (Str × Str)),
      List.Pairwise EntryLe acc →
      List.Pairwise EntryLe entries →
      (∀ x ∈ acc, ∀ e ∈ entries, EntryLe x e) →
      List.Pairwise EntryLe (List.foldl (fun acc e => setAlias acc e.1 e.2) acc entries)
  | [], acc, hacc, _, _ => by simpa using hacc
  | e :: rest, acc, hacc, hents, hub => by
    rcases List.pairwise_cons.mp hents with ⟨hrel, hrest⟩
    simp only [List.foldl_cons]
    apply foldl_setAlias_pairwise rest (setAlias acc e.1 e.2)
    · apply setAlias_pairwise hacc
      intro x hx
      exact hub x hx e (List.mem_cons_self _ _)
    · exact hrest
    · intro x hx e' he'
      rcases setAlias_mem hx with h' | h'
      · exact hub x h' e' (List.mem_cons_of_mem _ he')
      · rw [h']
        exact hrel e' he'

theorem fromEntries_pairwise {l : List (Str × Str)} (hl : List.Pairwise EntryLe l) :
    List.Pairwise EntryLe (fromEntries l) :=
  foldl_setAlias_pairwise l [] List.Pairwise.nil hl (by intro x hx; simp at hx)

-- ### C2: the post-pass sorts every component of a successful result

/-- C2: for every input manifest and action list on which `mutateStore`
succeeds, the returned manifest has its modules sorted by
`compareModules`, each module's files sorted lexicographically, and the
alias entries ordered by key — the post-pass runs once after all actions,
whatever actions ran, so the serialization order is a deterministic
function of content rather than of action application order. -/
theorem mutateStore_post_pass_sorted (store : Store) (actions : List Action) (s' : Store)
    (h : mutateStore store actions = .ok s') :
    List.Sorted ModLe s'.config.modules ∧
      (∀ m ∈ s'.config.modules, List.Sorted StrLe m.files) ∧
      List.Sorted EntryLe s'.config.aliases := by
  simp only [mutateStore] at h
  split at h
  · exact absurd h (by simp)
  · rename_i st heq
    injection h with h
    subst h
    refine ⟨?_, ?_, ?_⟩
    · exact (List.sorted_insertionSort ModLe st.modules).map
        sortFilesOfModule (fun a b hab => hab)
    · intro m hm
      rcases List.mem_map.mp hm with ⟨m₀, _, rfl⟩
      exact List.sorted_insertionSort StrLe m₀.files
    · exact fromEntries_pairwise (List.sorted_insertionSort EntryLe st.aliases)

/-- Witness for C2 at a concrete unsorted two-module manifest and the
empty action list. -/
theorem mutateStore_post_pass_sorted_witness :
    List.Sorted ModLe
        (Store.mk (Config.mk
          [Module.mk (str "a") (str "a") (str "v") [str "a", str "b"],
           Module.mk (str "b") (str "b") (str "v") []]
          [(str "a", str "t"), (str "b", str "t")])).config.modules ∧
      (∀ m ∈ (Store.mk (Config.mk
          [Module.mk (str "a") (str "a") (str "v") [str "a", str "b"],
           Module.mk (str "b") (str "b") (str "v") []]
          [(str "a", str "t"), (str "b", str "t")])).config.modules,
        List.Sorted StrLe m.files) ∧
      List.Sorted EntryLe
        (Store.mk (Config.mk
          [Module.mk (str "a") (str "a") (str "v") [str "a", str "b"],
           Module.mk (str "b") (str "b") (str "v") []]
          [(str "a", str "t"), (str "b", str "t")])).config.aliases :=
  mutateStore_post_pass_sorted
    (Store.mk (Config.mk
      [Module.mk (str "b") (str "b") (str "v") [],
       Module.mk (str "a") (str "a") (str "v") [str "b", str "a"]]
      [(str "b", str "t"), (str "a", str "t")]))
    []
    (Store.mk (Config.mk
      [Module.mk (str "a") (str "a") (str "v") [str "a", str "b"],
       Module.mk (str "b") (str "b") (str "v") []]
      [(str "a", str "t"), (str "b", str "t")]))
    (by decide)

-- ### updateFirst lemmas

theorem find?_updateFirst {p : Module → Bool} {f : Module → Module}
    (hp : ∀ x, p x = true → p (f x) = true) :
    ∀ l : List Module, (updateFirst p f l).find? p = (l.find? p).map f := by
  intro l
  induction l with
  | nil => rfl
  | cons y ys ih =>
    by_cases hy : p y = true
    · simp [updateFirst, hy, List.find?_cons_of_pos, hp y hy]
    · simp only [updateFirst, hy, if_false, Bool.false_eq_true]
      rw [List.find?_cons_of_neg _ (by simp [hy]), List.find?_cons_of_neg _ (by simp [hy]), ih]

theorem updateFirst_eq_self {p : Module → Bool} {f : Module → Module} :
    ∀ {l : List Module} {x : Module}, l.find? p = some x → f x = x → updateFirst p f l = l := by
  intro l
  induction l with
  | nil => intro x h _; simp at h
  | cons y ys ih =>
    intro x h hfx
    by_cases hy : p y = true
    · rw [List.find?_cons_of_pos _ hy] at h
      injection h with h
      subst h
      simp [updateFirst, hy, hfx]
    · rw [List.find?_cons_of_neg _ (by simp [hy])] at h
      simp [updateFirst, hy, ih h hfx]

-- ### C9: AddLink is idempotent

theorem addLinkUpdate_toStr (filePath : Str) (x : Module) :
    (addLinkUpdate filePath x).toStr = x.toStr := by
  unfold addLinkUpdate
  split
  · rfl
  · rfl

theorem addLinkUpdate_owns {link filePath : Str} (x : Module)
    (hx : ownsLink link x = true) : ownsLink link (addLinkUpdate filePath x) = true := by
  unfold ownsLink at hx ⊢
  rw [addLinkUpdate_toStr]
  exact hx

theorem addLinkUpdate_contains (filePath : Str) (x : Module) :
    (addLinkUpdate filePath x).files.contains filePath = true := by
  unfold addLinkUpdate
  split
  · assumption
  · simp

theorem addLinkUpdate_idem (filePath : Str) (x : Module) :
    addLinkUpdate filePath (addLinkUpdate filePath x) = addLinkUpdate filePath x := by
  by_cases hc0 : x.files.contains filePath = true
  · have h1 : addLinkUpdate filePath x = x := by
      unfold addLinkUpdate; rw [if_pos hc0]
    rw [h1, h1]
  · have h1 : addLinkUpdate filePath x = { x with files := x.files ++ [filePath] } := by
      unfold addLinkUpdate; rw [if_neg hc0]
    rw [h1]
    have h2 : ({ x with files := x.files ++ [filePath] } : Module).files.contains filePath
        = true := by simp
    unfold addLinkUpdate
    rw [if_pos h2]

theorem addLink_self_noop {st st' : WState} {link : Str}
    (h : applyAction st (.addLink link) = .ok st') :
    applyAction st' (.addLink link) = .ok st' := by
  simp only [applyAction, findOwner] at h ⊢
  cases hf : st.modules.find? (ownsLink link) with
  | none => rw [hf] at h; cases h
  | some foundMod =>
    rw [hf] at h
    injection h with h
    subst h
    have hf2 :
        (updateFirst (ownsLink link) (addLinkUpdate (deriveFilePath foundMod link))
            st.modules).find? (ownsLink link)
          = some (addLinkUpdate (deriveFilePath foundMod link) foundMod) := by
      rw [find?_updateFirst (fun x hx => addLinkUpdate_owns x hx) st.modules, hf]
      rfl
    have hderive :
        deriveFilePath (addLinkUpdate (deriveFilePath foundMod link) foundMod) link
          = deriveFilePath foundMod link := by
      unfold deriveFilePath
      rw [addLinkUpdate_toStr]
    have hnoop :
        updateFirst (ownsLink link) (addLinkUpdate (deriveFilePath foundMod link))
          (updateFirst (ownsLink link) (addLinkUpdate (deriveFilePath foundMod link)) st.modules)
        = updateFirst (ownsLink link) (addLinkUpdate (deriveFilePath foundMod link)) st.modules :=
      updateFirst_eq_self hf2 (addLinkUpdate_idem _ _)
    simp only [hf2, hderive, hnoop]

theorem applyActions_addLink_twice (st : WState) (link : Str) :
    applyActions st [.addLink link, .addLink link] = applyActions st [.addLink link] := by
  cases ha : applyAction st (.addLink link) with
  | error e => simp only [applyActions, ha]
  | ok st' => simp only [applyActions, ha, addLink_self_noop ha]

/-- C9: AddLink is idempotent — applying the same AddLink action twice is
the same as applying it once (in particular it yields the same file set
on the owning module; the two sides also agree when no owning module
resolves, where both fail identically). -/
theorem addLink_idempotent (store : Store) (link : Str) :
    mutateStore store [.addLink link, .addLink link] = mutateStore store [.addLink link] := by
  simp only [mutateStore, applyActions_addLink_twice]

-- ### duplicateStore is the value identity

theorem duplicateStore_eq (s : Store) : duplicateStore s = s := by
  have h1 : (fun (m : Module) =>
      ({ protocol := m.protocol, path := m.path,
         version := m.version, files := m.files } : Module)) = fun m => m :=
    funext fun m => rfl
  have h2 : (fun (e : Str × Str) => (e.1, e.2)) = fun e => e := funext fun e => rfl
  unfold duplicateStore
  rw [h1, h2, List.map_id', List.map_id']

-- ### Alias-map lookup lemmas

theorem setAlias_keys_of_present :
    ∀ {l : List (Str × Str)} {key v0 v : Str}, getAlias l key = some v0 →
      (setAlias l key v).map Prod.fst = l.map Prod.fst := by
  intro l
  induction l with
  | nil => intro key v0 v h; simp [getAlias] at h
  | cons e rest ih =>
    intro key v0 v h
    obtain ⟨a, b⟩ := e
    simp only [getAlias] at h
    simp only [setAlias]
    by_cases hak : (a == key) = true
    · rw [if_pos hak]
      simp
    · rw [if_neg hak]
      rw [if_neg hak] at h
      simp only [List.map_cons]
      rw [ih h]

theorem mem_setAlias_self :
    ∀ {l : List (Str × Str)} {key v0 v : Str}, getAlias l key = some v0 →
      (key, v) ∈ setAlias l key v := by
  intro l
  induction l with
  | nil => intro key v0 v h; simp [getAlias] at h
  | cons e rest ih =>
    intro key v0 v h
    obtain ⟨a, b⟩ := e
    simp only [getAlias] at h
    simp only [setAlias]
    by_cases hak : (a == key) = true
    · rw [if_pos hak]
      have ha : a = key := by simpa using hak
      rw [ha]
      exact List.mem_cons_self _ _
    · rw [if_neg hak]
      rw [if_neg hak] at h
      exact List.mem_cons_of_mem _ (ih h)

theorem setAlias_of_not_mem :
    ∀ {l : List (Str × Str)} {key v : Str}, key ∉ l.map Prod.fst →
      setAlias l key v = l ++ [(key, v)] := by
  intro l
  induction l with
  | nil => intro key v _; rfl
  | cons e rest ih =>
    intro key v h
    obtain ⟨a, b⟩ := e
    simp only [List.map_cons, List.mem_cons] at h
    push_neg at h
    obtain ⟨hne, hrest⟩ := h
    have hak : (a == key) = false := by
      simpa using fun hk => hne hk.symm
    simp only [setAlias, hak, Bool.false_eq_true, if_false, List.cons_append]
    rw [ih hrest]

theorem foldl_setAlias_of_nodup :
    ∀ (l acc : List (Str × Str)), (l.map Prod.fst).Nodup →
      (∀ k ∈ l.map Prod.fst, k ∉ acc.map Prod.fst) →
      List.foldl (fun acc e => setAlias acc e.1 e.2) acc l = acc ++ l
  | [], acc, _, _ => by simp
  | e :: rest, acc, hnd, hdisj => by
    obtain ⟨a, b⟩ := e
    simp only [List.foldl_cons]
    have ha : a ∉ acc.map Prod.fst := hdisj a (by simp)
    rw [setAlias_of_not_mem ha]
    simp only [List.map_cons, List.nodup_cons] at hnd
    have hdisj' : ∀ k ∈ rest.map Prod.fst, k ∉ (acc ++ [(a, b)]).map Prod.fst := by
      intro k hk
      rw [List.map_append]
      intro hmem
      rcases List.mem_append.mp hmem with hacc | hsing
      · exact hdisj k (List.mem_cons.mpr (Or.inr hk)) hacc
      · simp only [List.map_cons, List.map_nil, List.mem_singleton] at hsing
        rw [hsing] at hk
        exact hnd.1 hk
    rw [foldl_setAlias_of_nodup rest (acc ++ [(a, b)]) hnd.2 hdisj']
    simp

theorem fromEntries_eq_self {l : List (Str × Str)} (hnd : (l.map Prod.fst).Nodup) :
    fromEntries l = l := by
  unfold fromEntries
  rw [foldl_setAlias_of_nodup l [] hnd (by simp)]
  simp

theorem getAlias_of_mem_nodup :
    ∀ {l : List (Str × Str)} {key v : Str}, (l.map Prod.fst).Nodup →
      (key, v) ∈ l → getAlias l key = some v := by
  intro l
  induction l with
  | nil =>
    intro key v _ h
    simp at h
  | cons e rest ih =>
    intro key v hnd h
    obtain ⟨a, b⟩ := e
    simp only [List.map_cons, List.nodup_cons] at hnd
    rcases List.mem_cons.mp h with h' | h'
    · injection h' with h1 h2
      simp [getAlias, h1.symm, h2]
    · have hne : (a == key) = false := by
        have hkm : key ∈ rest.map Prod.fst := List.mem_map.mpr ⟨(key, v), h', rfl⟩
        simpa using fun hk : a = key => hnd.1 (by rw [hk]; exact hkm)
      simp only [getAlias, hne, Bool.false_eq_true, if_false]
      exact ih hnd.2 h'

-- ### C10: alias existence is decided by truthiness, not key membership

/-- C10: `mutateStore` decides alias existence by JavaScript truthiness of
the stored target path, not by key membership: on a manifest (with the
JavaScript-object invariant of distinct keys) whose aliases map `aliasPath`
to the empty string, `AddAlias` does not raise `AliasExists` and overwrites
the entry, while `RemoveAlias` raises `AliasNotFound` even though the key
is present. -/
theorem alias_truthiness (store : Store) (aliasPath aliasTargetPath : Str)
    (hnd : (store.config.aliases.map Prod.fst).Nodup)
    (hget : getAlias store.config.aliases aliasPath = some [])
    (howner : ∃ m ∈ store.config.modules, ownsLink aliasTargetPath m = true) :
    (∃ s', mutateStore store [.addAlias aliasPath aliasTargetPath] = .ok s' ∧
        getAlias s'.config.aliases aliasPath = some aliasTargetPath) ∧
      mutateStore store [.removeAlias aliasPath] = .error (.aliasNotFound aliasPath) := by
  have htruthy : truthy (getAlias store.config.aliases aliasPath) = false := by
    rw [hget]; rfl
  constructor
  · obtain ⟨m, hm, hown⟩ := howner
    have hfind : (store.config.modules.find? (ownsLink aliasTargetPath)).isSome = true :=
      List.find?_isSome.mpr ⟨m, hm, hown⟩
    cases hf : store.config.modules.find? (ownsLink aliasTargetPath) with
    | none => rw [hf] at hfind; simp at hfind
    | some m0 =>
      simp only [mutateStore, duplicateStore_eq, applyActions, applyAction, htruthy,
        Bool.false_eq_true, if_false, findOwner, hf]
      refine ⟨_, rfl, ?_⟩
      have hkeys : (setAlias store.config.aliases aliasPath aliasTargetPath).map Prod.fst
          = store.config.aliases.map Prod.fst := setAlias_keys_of_present hget
      have hnd1 : ((setAlias store.config.aliases aliasPath aliasTargetPath).map
          Prod.fst).Nodup := by rw [hkeys]; exact hnd
      have hperm : List.Perm
          ((setAlias store.config.aliases aliasPath aliasTargetPath).insertionSort EntryLe)
          (setAlias store.config.aliases aliasPath aliasTargetPath) :=
        List.perm_insertionSort EntryLe _
      have hnd2 : (((setAlias store.config.aliases aliasPath
          aliasTargetPath).insertionSort EntryLe).map Prod.fst).Nodup :=
        ((hperm.map Prod.fst).nodup_iff).mpr hnd1
      have hmem : (aliasPath, aliasTargetPath) ∈
          (setAlias store.config.aliases aliasPath aliasTargetPath).insertionSort EntryLe :=
        (List.mem_insertionSort EntryLe).mpr (mem_setAlias_self hget)
      rw [fromEntries_eq_self hnd2]
      exact getAlias_of_mem_nodup hnd2 hmem
  · simp only [mutateStore, duplicateStore_eq, applyActions, applyAction, htruthy,
      Bool.false_eq_true, if_false]

/-- Witness for C10: a one-module manifest whose aliases map the key to
the empty string. -/
theorem alias_truthiness_witness :
    (∃ s', mutateStore
        (Store.mk (Config.mk [Module.mk (str "p") (str "a") (str "v") []]
          [(str "al", str "")]))
        [.addAlias (str "al") (str "p://a/f.ts")] = .ok s' ∧
        getAlias s'.config.aliases (str "al") = some (str "p://a/f.ts")) ∧
      mutateStore
        (Store.mk (Config.mk [Module.mk (str "p") (str "a") (str "v") []]
          [(str "al", str "")]))
        [.removeAlias (str "al")] = .error (.aliasNotFound (str "al")) :=
  alias_truthiness
    (Store.mk (Config.mk [Module.mk (str "p") (str "a") (str "v") []] [(str "al", str "")]))
    (str "al") (str "p://a/f.ts")
    (by decide) (by decide)
    ⟨Module.mk (str "p") (str "a") (str "v") [], by decide, by decide⟩

-- ### C6: AddAlias error semantics (corrected — truthiness, not key membership)

/-- C6 (counterexample): the claim "AddAlias fails with AliasExists
exactly when the alias path key is already present" is false — on a
manifest whose aliases map the key to the empty string the key is
present, yet AddAlias succeeds (the stored target is falsy). -/
theorem addAlias_aliasExists_counterexample :
    (str "al") ∈ (Store.mk (Config.mk [Module.mk (str "p") (str "a") (str "v") []]
        [(str "al", str "")])).config.aliases.map Prod.fst ∧
      mutateStore
        (Store.mk (Config.mk [Module.mk (str "p") (str "a") (str "v") []]
          [(str "al", str "")]))
        [.addAlias (str "al") (str "p://a/f.ts")]
      = .ok (Store.mk (Config.mk [Module.mk (str "p") (str "a") (str "v") []]
          [(str "al", str "p://a/f.ts")])) := by
  exact ⟨by decide, by decide⟩

/-- C6 (amended): `mutateStore` on a single AddAlias fails with
`AliasExists` exactly when the aliases map stores a truthy (non-empty)
target for the alias key; otherwise it fails `ModuleNotFound` when no
module's identity is a prefix of the target path; otherwise it inserts
the `aliasPath -> aliasTargetPath` association — never consulting any
module's linked files. -/
theorem addAlias_semantics (store : Store) (aliasPath aliasTargetPath : Str) :
    mutateStore store [.addAlias aliasPath aliasTargetPath]
      = (if truthy (getAlias store.config.aliases aliasPath) then
          .error (.aliasExists aliasPath)
        else
          match findOwner store.config.modules aliasTargetPath with
          | none => .error (.addAliasModuleNotFound aliasTargetPath)
          | some _ =>
            .ok (Store.mk (Config.mk
              ((store.config.modules.insertionSort ModLe).map sortFilesOfModule)
              (fromEntries ((setAlias store.config.aliases aliasPath
                aliasTargetPath).insertionSort EntryLe))))) := by
  cases ht : truthy (getAlias store.config.aliases aliasPath) with
  | true =>
    simp only [mutateStore, duplicateStore_eq, applyActions, applyAction, ht, if_true]
  | false =>
    cases hf : findOwner store.config.modules aliasTargetPath with
    | none =>
      simp only [mutateStore, duplicateStore_eq, applyActions, applyAction, findOwner,
        ht, Bool.false_eq_true, if_false] at *
      simp only [hf]
    | some m0 =>
      simp only [mutateStore, duplicateStore_eq, applyActions, applyAction, findOwner,
        ht, Bool.false_eq_true, if_false] at *
      simp only [hf]

-- ### C3: AddModule then RemoveModule (corrected — prefix collisions)

/-- C3 (counterexample): with an existing module `p://a` and the new
module `p://ab` (not present by identity), RemoveModule's prefix match
removes `p://a` instead of `p://ab`, so the round trip does not return
the original module list — not even up to order. -/
theorem add_remove_roundtrip_counterexample :
    (∀ mod ∈ (Store.mk (Config.mk [Module.mk (str "p") (str "a") (str "v1") []]
        [])).config.modules,
      moduleEquals mod (Module.mk (str "p") (str "ab") (str "v1") []) = false) ∧
      mutateStore
        (Store.mk (Config.mk [Module.mk (str "p") (str "a") (str "v1") []] []))
        [.addModule (Module.mk (str "p") (str "ab") (str "v1") []),
         .removeModule (str "p") (str "ab")]
      = .ok (Store.mk (Config.mk [Module.mk (str "p") (str "ab") (str "v1") []] [])) ∧
      ¬ List.Perm
        ((Store.mk (Config.mk [Module.mk (str "p") (str "ab") (str "v1") []]
          [])).config.modules.map Module.toStr)
        ((Store.mk (Config.mk [Module.mk (str "p") (str "a") (str "v1") []]
          [])).config.modules.map Module.toStr) := by
  refine ⟨by decide, by decide, by decide⟩

theorem findIdx?_append_singleton {p : Module → Bool} {l : List Module} {y : Module}
    (hl : ∀ x ∈ l, p x = false) (hy : p y = true) :
    (l ++ [y]).findIdx? p = some l.length := by
  rw [List.findIdx?_append]
  have hnone : l.findIdx? p = none := List.findIdx?_eq_none_iff.mpr hl
  rw [hnone]
  simp [hy]

theorem eraseIdx_append_singleton (l : List Module) (y : Module) :
    (l ++ [y]).eraseIdx l.length = l := by
  rw [List.eraseIdx_append_of_length_le (Nat.le_refl _)]
  simp

/-- C3 (amended): if `m` is not present by identity and, in addition, no
existing module's identity is a prefix of `m`'s identity (RemoveModule
matches by identity-prefix on the first module in list order, so a
prefix collision removes the wrong module), then applying
`[AddModule m, RemoveModule m.protocol m.path]` succeeds and returns a
module list whose identities are a permutation of the original's (the
post-pass re-sorts, so equality holds only up to order), independent of
file/alias state. -/
theorem add_remove_roundtrip (store : Store) (m : Module)
    (hnew : ∀ mod ∈ store.config.modules, moduleEquals mod m = false)
    (hnopre : ∀ mod ∈ store.config.modules, ownsLink m.toStr mod = false) :
    ∃ s', mutateStore store [.addModule m, .removeModule m.protocol m.path] = .ok s' ∧
      List.Perm (s'.config.modules.map Module.toStr)
        (store.config.modules.map Module.toStr) := by
  have hany : store.config.modules.any (fun mod => moduleEquals mod m) = false := by
    rw [List.any_eq_false]
    intro x hx
    simp [hnew x hx]
  have hself : ownsLink (m.protocol ++ str "://" ++ m.path) m = true := by
    unfold ownsLink Module.toStr
    simp
  have hfind : (store.config.modules ++ [m]).findIdx?
      (ownsLink (m.protocol ++ str "://" ++ m.path)) = some store.config.modules.length :=
    findIdx?_append_singleton (fun x hx => hnopre x hx) hself
  simp only [mutateStore, duplicateStore_eq, applyActions, applyAction, hany,
    Bool.false_eq_true, if_false, hfind, eraseIdx_append_singleton]
  refine ⟨_, rfl, ?_⟩
  have h1 : ∀ l : List Module, (l.map sortFilesOfModule).map Module.toStr
      = l.map Module.toStr := by
    intro l
    rw [List.map_map]
    rfl
  rw [h1]
  exact (List.perm_insertionSort ModLe store.config.modules).map Module.toStr

/-- Witness for C3 (amended) at a store with one unrelated module. -/
theorem add_remove_roundtrip_witness :
    ∃ s', mutateStore
        (Store.mk (Config.mk [Module.mk (str "q") (str "z") (str "v") []] []))
        [.addModule (Module.mk (str "p") (str "a") (str "v") []),
         .removeModule (str "p") (str "a")] = .ok s' ∧
      List.Perm (s'.config.modules.map Module.toStr)
        ((Store.mk (Config.mk [Module.mk (str "q") (str "z") (str "v") []]
          [])).config.modules.map Module.toStr) :=
  add_remove_roundtrip
    (Store.mk (Config.mk [Module.mk (str "q") (str "z") (str "v") []] []))
    (Module.mk (str "p") (str "a") (str "v") [])
    (by decide) (by decide)

-- ### jsSplit lemmas

theorem splitGo_of_not_occurring (sc : Char) (st : Str) :
    ∀ (fuel : Nat) (l acc : Str), l.length ≤ fuel → ¬ (sc :: st) <:+: l →
      splitGo sc st fuel l acc = [acc.reverse ++ l]
  | fuel, [], acc, _, _ => by cases fuel <;> simp [splitGo]
  | 0, c :: rest, acc, hlen, _ => by simp at hlen
  | fuel + 1, c :: rest, acc, hlen, hinf => by
    have hpre : (sc :: st).isPrefixOf (c :: rest) = false := by
      rw [Bool.eq_false_iff]
      intro hp
      exact hinf (List.isPrefixOf_iff_prefix.mp hp).isInfix
    simp only [splitGo, hpre, Bool.false_eq_true, if_false]
    rw [splitGo_of_not_occurring sc st fuel rest (c :: acc)
      (Nat.succ_le_succ_iff.mp (by simpa using hlen))
      (fun hi => hinf (List.infix_cons hi))]
    simp

theorem jsSplit_strip {sc : Char} {st rest : Str} (hni : ¬ (sc :: st) <:+: rest) :
    jsSplit (sc :: st) ((sc :: st) ++ rest) = [[], rest] := by
  unfold jsSplit
  have hlen : ((sc :: st) ++ rest).length = (st.length + rest.length) + 1 := by
    simp [Nat.add_comm, Nat.add_assoc, Nat.add_left_comm]
  rw [hlen]
  show splitGo sc st ((st.length + rest.length) + 1) (sc :: (st ++ rest)) [] = [[], rest]
  have hpre : (sc :: st).isPrefixOf (sc :: (st ++ rest)) = true :=
    List.isPrefixOf_iff_prefix.mpr
      (List.cons_prefix_cons.mpr ⟨rfl, List.prefix_append st rest⟩)
  simp only [splitGo, hpre, if_true]
  rw [show (st ++ rest).drop st.length = rest from List.drop_left st rest]
  rw [splitGo_of_not_occurring sc st (st.length + rest.length) rest []
    (Nat.le_add_left _ _) hni]
  simp

theorem toStr_ne_nil (m : Module) : m.toStr ≠ [] := by
  unfold Module.toStr str
  cases m.protocol <;> simp

theorem deriveFilePath_eq_strip {m : Module} {rest : Str} (hni : ¬ m.toStr <:+: rest) :
    deriveFilePath m (m.toStr ++ rest) = rest := by
  unfold deriveFilePath
  cases hm : m.toStr with
  | nil => exact absurd hm (toStr_ne_nil m)
  | cons sc st =>
    rw [hm] at hni
    rw [jsSplit_strip hni]
    rfl

-- ### C4: link ownership and file-path derivation (corrected)

/-- C4 (counterexample): the claim that the derived file path always
equals the remainder after stripping the identity prefix is false — the
code computes `link.split(identity)[1]`, which stops at the next
occurrence of the identity: for module `p://a` and link
`p://a/xp://a/y` the claimed remainder is `/xp://a/y` but the code
derives `/x` (and a single AddLink links `/x`). -/
theorem link_derivation_counterexample :
    findOwner [Module.mk (str "p") (str "a") (str "v") []] (str "p://a/xp://a/y")
      = some (Module.mk (str "p") (str "a") (str "v") []) ∧
      str "p://a/xp://a/y"
        = (Module.mk (str "p") (str "a") (str "v") []).toStr ++ str "/xp://a/y" ∧
      deriveFilePath (Module.mk (str "p") (str "a") (str "v") []) (str "p://a/xp://a/y")
        = str "/x" ∧
      str "/x" ≠ str "/xp://a/y" ∧
      mutateStore
        (Store.mk (Config.mk [Module.mk (str "p") (str "a") (str "v") []] []))
        [.addLink (str "p://a/xp://a/y")]
      = .ok (Store.mk (Config.mk [Module.mk (str "p") (str "a") (str "v") [str "/x"]] [])) := by
  refine ⟨by decide, by decide, by decide, by decide, by decide⟩

/-- C4 (amended): in both phases, AddLink and RemoveLink resolve the
owning module as the first module in list order whose identity string is
a prefix of the link, and raise ModuleNotFound (in the corresponding
variant) when none matches; the derived file path is
`link.split(identity)[1]`, which equals the remainder after stripping
the identity prefix provided the identity does not occur again in that
remainder (otherwise the code truncates at the next occurrence, as the
counterexample shows). -/
theorem link_owner_resolution (modules : List Module) (link : Str)
    (aliases : List (Str × Str)) (remote : Str → Except Str Bool)
    (localIns : Str → Except LocalErr Bool) :
    (findOwner modules link = none →
      (∀ mod ∈ modules, ¬ (mod.toStr <+: link)) ∧
      applyAction (WState.mk modules aliases) (.addLink link)
        = .error (.addLinkModuleNotFound link) ∧
      syncAction remote localIns modules (.addLink link)
        = .error (.addLinkModuleNotFound link) ∧
      applyAction (WState.mk modules aliases) (.removeLink link)
        = .error (.removeLinkModuleNotFound link) ∧
      syncAction remote localIns modules (.removeLink link)
        = .error (.removeLinkModuleNotFound link)) ∧
    (∀ m, findOwner modules link = some m →
      (m.toStr <+: link ∧
        ∃ pre suf, modules = pre ++ m :: suf ∧ ∀ x ∈ pre, ¬ (x.toStr <+: link)) ∧
      (∀ rest, link = m.toStr ++ rest → ¬ (m.toStr <:+: rest) →
        deriveFilePath m link = rest)) := by
  constructor
  · intro hnone
    have hall : ∀ mod ∈ modules, ¬ (mod.toStr <+: link) := by
      intro mod hmod hpx
      have h1 := List.find?_eq_none.mp hnone mod hmod
      exact h1 (by simpa [ownsLink] using List.isPrefixOf_iff_prefix.mpr hpx)
    refine ⟨hall, ?_, ?_, ?_, ?_⟩ <;>
      simp only [applyAction, syncAction, findOwner] at hnone ⊢ <;> rw [hnone]
  · intro m hm
    constructor
    · rcases List.find?_eq_some.mp hm with ⟨hp, pre, suf, heq, hpre⟩
      refine ⟨by simpa [ownsLink] using hp, pre, suf, heq, ?_⟩
      intro x hx hpx
      have h1 := hpre x hx
      have h2 : ownsLink link x = true := by
        simpa [ownsLink] using List.isPrefixOf_iff_prefix.mpr hpx
      rw [h2] at h1
      simp at h1
    · intro rest hrest hni
      rw [hrest]
      exact deriveFilePath_eq_strip hni

/-- Witness for C4 (amended): a two-module manifest where the second
module in list order also owns the link, exercising the first-match rule
and the derivation. -/
theorem link_owner_resolution_witness :
    ((Module.mk (str "p") (str "a") (str "v") []).toStr <+: str "p://a/u.ts" ∧
      ∃ pre suf,
        [Module.mk (str "q") (str "b") (str "v") [],
         Module.mk (str "p") (str "a") (str "v") [],
         Module.mk (str "p") (str "a/u") (str "v") []]
          = pre ++ Module.mk (str "p") (str "a") (str "v") [] :: suf ∧
        ∀ x ∈ pre, ¬ (x.toStr <+: str "p://a/u.ts")) ∧
      deriveFilePath (Module.mk (str "p") (str "a") (str "v") []) (str "p://a/u.ts")
        = str "/u.ts" :=
  ⟨((link_owner_resolution
      [Module.mk (str "q") (str "b") (str "v") [],
       Module.mk (str "p") (str "a") (str "v") [],
       Module.mk (str "p") (str "a/u") (str "v") []]
      (str "p://a/u.ts") [] (fun _ => .ok true) (fun _ => .ok true)).2
    (Module.mk (str "p") (str "a") (str "v") []) (by decide)).1,
   ((link_owner_resolution
      [Module.mk (str "q") (str "b") (str "v") [],
       Module.mk (str "p") (str "a") (str "v") [],
       Module.mk (str "p") (str "a/u") (str "v") []]
      (str "p://a/u.ts") [] (fun _ => .ok true) (fun _ => .ok true)).2
    (Module.mk (str "p") (str "a") (str "v") []) (by decide)).2
    (str "/u.ts") (by decide) (by decide)⟩

-- ### C7: UpdateModule synchronization cost and order

theorem syncUpdateFiles_eq (remote : Str → Except Str Bool) (p pa v : Str) (b : Str → Bool) :
    ∀ files : List Str, (∀ f ∈ files, remote (createURL p pa v f) = .ok (b f)) →
      syncUpdateFiles remote p pa v files
        = .ok (files.flatMap (fun f =>
            [.remoteInspect (createURL p pa v f), .call (.updateLink p pa v f (b f))]))
  | [], _ => by simp [syncUpdateFiles]
  | f :: rest, hb => by
    have hf := hb f (List.mem_cons_self _ _)
    simp only [syncUpdateFiles, hf]
    rw [syncUpdateFiles_eq remote p pa v b rest (fun g hg => hb g (List.mem_cons_of_mem _ hg))]
    simp [List.flatMap_cons]

theorem countP_flatMap_pair (q : SyncEvent → Bool) (g1 g2 : Str → SyncEvent)
    (h1 : ∀ f, q (g1 f) = true) (h2 : ∀ f, q (g2 f) = false) :
    ∀ files : List Str, (files.flatMap (fun f => [g1 f, g2 f])).countP q = files.length
  | [] => by simp
  | f :: rest => by
    simp only [List.flatMap_cons, List.cons_append, List.nil_append, List.countP_cons,
      List.length_cons, h1 f, h2 f, List.countP_append]
    rw [countP_flatMap_pair q g1 g2 h1 h2 rest]
    simp

theorem countP_flatMap_pair' (q : SyncEvent → Bool) (g1 g2 : Str → SyncEvent)
    (h1 : ∀ f, q (g1 f) = false) (h2 : ∀ f, q (g2 f) = true) :
    ∀ files : List Str, (files.flatMap (fun f => [g1 f, g2 f])).countP q = files.length
  | [] => by simp
  | f :: rest => by
    simp only [List.flatMap_cons, List.cons_append, List.nil_append, List.countP_cons,
      List.length_cons, h1 f, h2 f, List.countP_append]
    rw [countP_flatMap_pair' q g1 g2 h1 h2 rest]
    simp

/-- C7: for an UpdateModule action, `mutateRepository` resolves the module
by exact (protocol, path) equality in the supplied manifest, and for each
of that module's linked files, in file order, performs exactly one remote
export inspection at the new version's URL immediately followed by one
`updateLink` persistence call with the new version and the refreshed
default-export flag — so the inspection count and the `updateLink` count
both equal the module's file count. -/
theorem updateModule_sync (store : Store) (p pa v : Str) (m : Module)
    (remote : Str → Except Str Bool) (localIns : Str → Except LocalErr Bool) (b : Str → Bool)
    (hfind : store.config.modules.find? (exactMatch p pa) = some m)
    (hb : ∀ f ∈ m.files, remote (createURL p pa v f) = .ok (b f)) :
    mutateRepository remote localIns store [.updateModule p pa v]
      = .ok (m.files.flatMap (fun f =>
          [.remoteInspect (createURL p pa v f), .call (.updateLink p pa v f (b f))])) ∧
      (m.files.flatMap (fun f =>
          [SyncEvent.remoteInspect (createURL p pa v f),
           SyncEvent.call (.updateLink p pa v f (b f))])).countP SyncEvent.isRemoteInspect
        = m.files.length ∧
      (m.files.flatMap (fun f =>
          [SyncEvent.remoteInspect (createURL p pa v f),
           SyncEvent.call (.updateLink p pa v f (b f))])).countP SyncEvent.isUpdateLinkCall
        = m.files.length := by
  refine ⟨?_, ?_, ?_⟩
  · simp only [mutateRepository, syncAction, hfind]
    rw [syncUpdateFiles_eq remote p pa v b m.files hb]
    simp
  · exact countP_flatMap_pair _ _ _ (fun f => rfl) (fun f => rfl) m.files
  · exact countP_flatMap_pair' _ _ _ (fun f => rfl) (fun f => rfl) m.files

/-- Witness for C7: a module with two linked files and an oracle that
always reports a default export. -/
theorem updateModule_sync_witness :
    mutateRepository (fun _ => .ok true) (fun _ => .ok true)
      (Store.mk (Config.mk
        [Module.mk (str "p") (str "a") (str "v1") [str "/a.ts", str "/b.ts"]] []))
      [.updateModule (str "p") (str "a") (str "v2")]
      = .ok ((Module.mk (str "p") (str "a") (str "v1")
          [str "/a.ts", str "/b.ts"]).files.flatMap (fun f =>
          [.remoteInspect (createURL (str "p") (str "a") (str "v2") f),
           .call (.updateLink (str "p") (str "a") (str "v2") f true)])) ∧
      ((Module.mk (str "p") (str "a") (str "v1")
          [str "/a.ts", str "/b.ts"]).files.flatMap (fun f =>
          [SyncEvent.remoteInspect (createURL (str "p") (str "a") (str "v2") f),
           SyncEvent.call (.updateLink (str "p") (str "a") (str "v2") f
             true)])).countP SyncEvent.isRemoteInspect
        = (Module.mk (str "p") (str "a") (str "v1") [str "/a.ts", str "/b.ts"]).files.length ∧
      ((Module.mk (str "p") (str "a") (str "v1")
          [str "/a.ts", str "/b.ts"]).files.flatMap (fun f =>
          [SyncEvent.remoteInspect (createURL (str "p") (str "a") (str "v2") f),
           SyncEvent.call (.updateLink (str "p") (str "a") (str "v2") f
             true)])).countP SyncEvent.isUpdateLinkCall
        = (Module.mk (str "p") (str "a") (str "v1") [str "/a.ts", str "/b.ts"]).files.length :=
  updateModule_sync
    (Store.mk (Config.mk
      [Module.mk (str "p") (str "a") (str "v1") [str "/a.ts", str "/b.ts"]] []))
    (str "p") (str "a") (str "v2")
    (Module.mk (str "p") (str "a") (str "v1") [str "/a.ts", str "/b.ts"])
    (fun _ => .ok true) (fun _ => .ok true) (fun _ => true)
    (by decide) (by intro f _; rfl)

-- ### C8: AddAlias tolerates a locally missing file

/-- C8: in `mutateRepository`'s AddAlias case, a `NotFound` failure of the
local export inspection of the composed vendor path is recovered: the
default-export flag degrades to `false` and the `addAlias` persistence
call is still made, so the batch does not abort; any other local
inspection failure propagates and aborts the batch. -/
theorem addAlias_sync_tolerance (store : Store) (aliasPath aliasTargetPath : Str)
    (remote : Str → Except Str Bool) (localIns : Str → Except LocalErr Bool)
    (m : Module) (fp : Str)
    (hfind : findOwner store.config.modules aliasTargetPath = some m)
    (hfp : fp = joinPath vendorDirectoryPath m.protocol m.path
      (deriveFilePath m aliasTargetPath)) :
    (localIns fp = .error .notFound →
      mutateRepository remote localIns store [.addAlias aliasPath aliasTargetPath]
        = .ok [.localInspect fp,
            .call (.addAlias m.protocol m.path (deriveFilePath m aliasTargetPath)
              aliasPath false)]) ∧
    (∀ msg, localIns fp = .error (.other msg) →
      mutateRepository remote localIns store [.addAlias aliasPath aliasTargetPath]
        = .error (.inspectFailed msg)) := by
  subst hfp
  constructor
  · intro hloc
    simp only [mutateRepository, syncAction, hfind, hloc]
    simp
  · intro msg hloc
    simp only [mutateRepository, syncAction, hfind, hloc]

/-- Witness for C8 at a concrete one-module manifest and an oracle whose
local inspection reports the file missing; note the composed on-disk path
`vendor/p/a//f.ts`. -/
theorem addAlias_sync_tolerance_witness :
    mutateRepository (fun _ => .ok true) (fun _ => .error .notFound)
      (Store.mk (Config.mk [Module.mk (str "p") (str "a") (str "v") []] []))
      [.addAlias (str "al") (str "p://a/f.ts")]
      = .ok [.localInspect (str "vendor/p/a//f.ts"),
          .call (.addAlias (str "p") (str "a")
            (deriveFilePath (Module.mk (str "p") (str "a") (str "v") [])
              (str "p://a/f.ts")) (str "al") false)] :=
  (addAlias_sync_tolerance
    (Store.mk (Config.mk [Module.mk (str "p") (str "a") (str "v") []] []))
    (str "al") (str "p://a/f.ts")
    (fun _ => .ok true) (fun _ => .error .notFound)
    (Module.mk (str "p") (str "a") (str "v") [])
    (str "vendor/p/a//f.ts")
    (by decide) (by decide)).1 rfl

-- ### C5: module resolution in the Synchronizer (corrected)

theorem map_modKey_updateFirst {p : Module → Bool} {f : Module → Module}
    (hf : ∀ x, modKey (f x) = modKey x) :
    ∀ l : List Module, (updateFirst p f l).map modKey = l.map modKey
  | [] => rfl
  | x :: xs => by
    by_cases hx : p x = true
    · simp [updateFirst, hx, hf x]
    · simp [updateFirst, hx, map_modKey_updateFirst hf xs]

theorem addLinkUpdate_modKey (filePath : Str) (x : Module) :
    modKey (addLinkUpdate filePath x) = modKey x := by
  unfold addLinkUpdate
  split
  · rfl
  · rfl

theorem removeLinkUpdate_modKey (filePath : Str) (x : Module) :
    modKey (removeLinkUpdate filePath x) = modKey x := rfl

theorem setVersion_modKey (v : Str) (x : Module) : modKey (setVersion v x) = modKey x := rfl

theorem toStr_eq_of_modKey {a b : Module} (h : modKey a = modKey b) : a.toStr = b.toStr := by
  have h1 : a.protocol = b.protocol := congrArg Prod.fst h
  have h2 : a.path = b.path := congrArg Prod.snd h
  unfold Module.toStr
  rw [h1, h2]

theorem ownsLink_eq_of_modKey {a b : Module} (h : modKey a = modKey b) (link : Str) :
    ownsLink link a = ownsLink link b := by
  unfold ownsLink
  rw [toStr_eq_of_modKey h]

theorem exactMatch_eq_of_modKey {a b : Module} (h : modKey a = modKey b) (p pa : Str) :
    exactMatch p pa a = exactMatch p pa b := by
  have h1 : a.protocol = b.protocol := congrArg Prod.fst h
  have h2 : a.path = b.path := congrArg Prod.snd h
  unfold exactMatch
  rw [h1, h2]

theorem applyAction_keys_mono {st st' : WState} {a : Action}
    (h : applyAction st a = .ok st') (hnr : a.isRemoveModule = false) :
    ∀ k ∈ st.modules.map modKey, k ∈ st'.modules.map modKey := by
  cases a with
  | addModule module =>
    simp only [applyAction] at h
    split at h
    · cases h
    · injection h with h
      subst h
      intro k hk
      rw [List.map_append]
      exact List.mem_append_left _ hk
  | removeModule p pa => simp [Action.isRemoveModule] at hnr
  | addLink link =>
    simp only [applyAction, findOwner] at h
    cases hf : st.modules.find? (ownsLink link) with
    | none => rw [hf] at h; cases h
    | some m =>
      rw [hf] at h
      injection h with h
      subst h
      intro k hk
      rw [map_modKey_updateFirst (addLinkUpdate_modKey _) st.modules]
      exact hk
  | removeLink link =>
    cases hf : st.modules.find? (ownsLink link) with
    | none =>
      simp only [applyAction, findOwner, hf] at h
      cases h
    | some m =>
      simp only [applyAction, findOwner, hf] at h
      split at h
      · injection h with h
        subst h
        intro k hk
        rw [map_modKey_updateFirst (removeLinkUpdate_modKey _) st.modules]
        exact hk
      · cases h
  | addAlias aliasPath aliasTargetPath =>
    simp only [applyAction, findOwner] at h
    split at h
    · cases h
    · cases hf : st.modules.find? (ownsLink aliasTargetPath) with
      | none => rw [hf] at h; cases h
      | some m =>
        rw [hf] at h
        injection h with h
        subst h
        intro k hk
        exact hk
  | removeAlias aliasPath =>
    simp only [applyAction] at h
    split at h
    · injection h with h
      subst h
      intro k hk
      exact hk
    · cases h
  | updateModule p pa v =>
    simp only [applyAction] at h
    cases hf : st.modules.find? (exactMatch p pa) with
    | none => rw [hf] at h; cases h
    | some m =>
      rw [hf] at h
      injection h with h
      subst h
      intro k hk
      rw [map_modKey_updateFirst (setVersion_modKey _) st.modules]
      exact hk

theorem applyActions_keys_mono :
    ∀ {acts : List Action} {st stF : WState},
      applyActions st acts = .ok stF → (∀ a ∈ acts, a.isRemoveModule = false) →
      ∀ k ∈ st.modules.map modKey, k ∈ stF.modules.map modKey := by
  intro acts
  induction acts with
  | nil =>
    intro st stF h _ k hk
    simp only [applyActions] at h
    injection h with h
    subst h
    exact hk
  | cons a rest ih =>
    intro st stF h hnr k hk
    simp only [applyActions] at h
    cases ha : applyAction st a with
    | error e => rw [ha] at h; cases h
    | ok st1 =>
      rw [ha] at h
      exact ih h (fun x hx => hnr x (List.mem_cons_of_mem _ hx)) k
        (applyAction_keys_mono ha (hnr a (List.mem_cons_self _ _)) k hk)

theorem SyncResolves_mono {modules modules' : List Module}
    (hsub : ∀ k ∈ modules.map modKey, k ∈ modules'.map modKey)
    {a : Action} (h : SyncResolves modules a) : SyncResolves modules' a := by
  cases a with
  | addLink link =>
    obtain ⟨m, hm, hp⟩ := h
    obtain ⟨m', hm', hkey⟩ :=
      List.mem_map.mp (hsub _ (List.mem_map.mpr ⟨m, hm, rfl⟩))
    exact ⟨m', hm', by rw [ownsLink_eq_of_modKey hkey]; exact hp⟩
  | removeLink link =>
    obtain ⟨m, hm, hp⟩ := h
    obtain ⟨m', hm', hkey⟩ :=
      List.mem_map.mp (hsub _ (List.mem_map.mpr ⟨m, hm, rfl⟩))
    exact ⟨m', hm', by rw [ownsLink_eq_of_modKey hkey]; exact hp⟩
  | addAlias aliasPath aliasTargetPath =>
    obtain ⟨m, hm, hp⟩ := h
    obtain ⟨m', hm', hkey⟩ :=
      List.mem_map.mp (hsub _ (List.mem_map.mpr ⟨m, hm, rfl⟩))
    exact ⟨m', hm', by rw [ownsLink_eq_of_modKey hkey]; exact hp⟩
  | updateModule p pa v =>
    obtain ⟨m, hm, hp⟩ := h
    obtain ⟨m', hm', hkey⟩ :=
      List.mem_map.mp (hsub _ (List.mem_map.mpr ⟨m, hm, rfl⟩))
    exact ⟨m', hm', by rw [exactMatch_eq_of_modKey hkey]; exact hp⟩
  | addModule m => trivial
  | removeModule p pa => trivial
  | removeAlias aliasPath => trivial

theorem applyAction_resolves {st st' : WState} {a : Action}
    (h : applyAction st a = .ok st') : SyncResolves st.modules a := by
  cases a with
  | addModule m => trivial
  | removeModule p pa => trivial
  | removeAlias aliasPath => trivial
  | addLink link =>
    simp only [applyAction, findOwner] at h
    cases hf : st.modules.find? (ownsLink link) with
    | none => rw [hf] at h; cases h
    | some m => exact ⟨m, List.mem_of_find?_eq_some hf, List.find?_some hf⟩
  | removeLink link =>
    simp only [applyAction, findOwner] at h
    cases hf : st.modules.find? (ownsLink link) with
    | none => rw [hf] at h; cases h
    | some m => exact ⟨m, List.mem_of_find?_eq_some hf, List.find?_some hf⟩
  | addAlias aliasPath aliasTargetPath =>
    simp only [applyAction, findOwner] at h
    split at h
    · cases h
    · cases hf : st.modules.find? (ownsLink aliasTargetPath) with
      | none => rw [hf] at h; cases h
      | some m => exact ⟨m, List.mem_of_find?_eq_some hf, List.find?_some hf⟩
  | updateModule p pa v =>
    simp only [applyAction] at h
    cases hf : st.modules.find? (exactMatch p pa) with
    | none => rw [hf] at h; cases h
    | some m => exact ⟨m, List.mem_of_find?_eq_some hf, List.find?_some hf⟩

theorem applyActions_resolves :
    ∀ {acts : List Action} {st stF : WState},
      applyActions st acts = .ok stF → (∀ a ∈ acts, a.isRemoveModule = false) →
      ∀ a ∈ acts, SyncResolves stF.modules a := by
  intro acts
  induction acts with
  | nil => intro st stF _ _ a ha; simp at ha
  | cons a0 rest ih =>
    intro st stF h hnr a ha
    simp only [applyActions] at h
    cases ha0 : applyAction st a0 with
    | error e => rw [ha0] at h; cases h
    | ok st1 =>
      rw [ha0] at h
      rcases List.mem_cons.mp ha with rfl | ha'
      · have h0 : SyncResolves st.modules a := applyAction_resolves ha0
        have hm1 := applyAction_keys_mono ha0 (hnr a (List.mem_cons_self _ _))
        have hm2 := applyActions_keys_mono h (fun x hx => hnr x (List.mem_cons_of_mem _ hx))
        exact SyncResolves_mono (fun k hk => hm2 k (hm1 k hk)) h0
      · exact ih h (fun x hx => hnr x (List.mem_cons_of_mem _ hx)) a ha'

theorem SyncResolves_postPass {stF : WState} {a : Action}
    (h : SyncResolves stF.modules a) :
    SyncResolves ((stF.modules.insertionSort ModLe).map sortFilesOfModule) a := by
  apply SyncResolves_mono (fun k hk => ?_) h
  obtain ⟨m, hm, rfl⟩ := List.mem_map.mp hk
  exact List.mem_map.mpr ⟨sortFilesOfModule m,
    List.mem_map.mpr ⟨m, (List.mem_insertionSort ModLe).mpr hm, rfl⟩, rfl⟩

theorem syncUpdateFiles_err {remote : Str → Except Str Bool} {p pa v : Str} :
    ∀ {files : List Str} {e : SyncErr},
      syncUpdateFiles remote p pa v files = .error e → e.isModuleNotFound = false := by
  intro files
  induction files with
  | nil => intro e h; simp [syncUpdateFiles] at h
  | cons f rest ih =>
    intro e h
    simp only [syncUpdateFiles] at h
    cases hr : remote (createURL p pa v f) with
    | error msg =>
      rw [hr] at h
      injection h with h
      subst h
      rfl
    | ok b =>
      rw [hr] at h
      cases hrec : syncUpdateFiles remote p pa v rest with
      | error e' =>
        rw [hrec] at h
        injection h with h
        subst h
        exact ih hrec
      | ok evs => rw [hrec] at h; cases h

theorem syncAction_err {remote : Str → Except Str Bool}
    {localIns : Str → Except LocalErr Bool} {modules : List Module} {a : Action} {e : SyncErr}
    (hres : SyncResolves modules a)
    (h : syncAction remote localIns modules a = .error e) :
    e.isModuleNotFound = false := by
  cases a with
  | addModule m => simp [syncAction] at h
  | removeModule p pa => simp [syncAction] at h
  | removeAlias aliasPath => simp [syncAction] at h
  | addLink link =>
    obtain ⟨m, hm, hp⟩ := hres
    cases hf : modules.find? (ownsLink link) with
    | none =>
      have hsome := List.find?_isSome.mpr ⟨m, hm, hp⟩
      rw [hf] at hsome
      simp at hsome
    | some m0 =>
      simp only [syncAction, findOwner, hf] at h
      cases hr : remote (createURL m0.protocol m0.path m0.version (deriveFilePath m0 link)) with
      | error msg =>
        rw [hr] at h
        injection h with h
        subst h
        rfl
      | ok b => rw [hr] at h; cases h
  | removeLink link =>
    obtain ⟨m, hm, hp⟩ := hres
    cases hf : modules.find? (ownsLink link) with
    | none =>
      have hsome := List.find?_isSome.mpr ⟨m, hm, hp⟩
      rw [hf] at hsome
      simp at hsome
    | some m0 =>
      simp only [syncAction, findOwner, hf] at h
      cases h
  | addAlias aliasPath aliasTargetPath =>
    obtain ⟨m, hm, hp⟩ := hres
    cases hf : modules.find? (ownsLink aliasTargetPath) with
    | none =>
      have hsome := List.find?_isSome.mpr ⟨m, hm, hp⟩
      rw [hf] at hsome
      simp at hsome
    | some m0 =>
      simp only [syncAction, findOwner, hf] at h
      cases hl : localIns (joinPath vendorDirectoryPath m0.protocol m0.path
          (deriveFilePath m0 aliasTargetPath)) with
      | ok b => rw [hl] at h; cases h
      | error le =>
        cases le with
        | notFound => rw [hl] at h; cases h
        | other msg =>
          rw [hl] at h
          injection h with h
          subst h
          rfl
  | updateModule p pa v =>
    obtain ⟨m, hm, hp⟩ := hres
    cases hf : modules.find? (exactMatch p pa) with
    | none =>
      have hsome := List.find?_isSome.mpr ⟨m, hm, hp⟩
      rw [hf] at hsome
      simp at hsome
    | some m0 =>
      simp only [syncAction, hf] at h
      exact syncUpdateFiles_err h

theorem mutateRepository_err {remote : Str → Except Str Bool}
    {localIns : Str → Except LocalErr Bool} {store : Store} :
    ∀ {acts : List Action} {e : SyncErr},
      (∀ a ∈ acts, SyncResolves store.config.modules a) →
      mutateRepository remote localIns store acts = .error e →
      e.isModuleNotFound = false := by
  intro acts
  induction acts with
  | nil => intro e _ h; simp [mutateRepository] at h
  | cons a rest ih =>
    intro e hres h
    simp only [mutateRepository] at h
    cases ha : syncAction remote localIns store.config.modules a with
    | error e0 =>
      rw [ha] at h
      injection h with h
      subst h
      exact syncAction_err (hres a (List.mem_cons_self _ _)) ha
    | ok evs =>
      rw [ha] at h
      cases hrec : mutateRepository remote localIns store rest with
      | error e' =>
        rw [hrec] at h
        injection h with h
        subst h
        exact ih (fun x hx => hres x (List.mem_cons_of_mem _ hx)) hrec
      | ok evs' => rw [hrec] at h; cases h

/-- C5 (counterexample): the claim that the module-not-found branches of
`mutateRepository` are unreachable whenever it is given the manifest of a
successful `mutateStore` over the same actions is false — a batch that
links into a module and then removes that module replays AddLink against
a post-mutation manifest in which the module no longer exists. -/
theorem sync_resolution_counterexample :
    mutateStore (Store.mk (Config.mk [Module.mk (str "p") (str "a") (str "v") []] []))
      [.addLink (str "p://a/f.ts"), .removeModule (str "p") (str "a")]
      = .ok (Store.mk (Config.mk [] [])) ∧
      mutateRepository (fun _ => .ok false) (fun _ => .ok false)
        (Store.mk (Config.mk [] []))
        [.addLink (str "p://a/f.ts"), .removeModule (str "p") (str "a")]
      = .error (.addLinkModuleNotFound (str "p://a/f.ts")) ∧
      SyncErr.isModuleNotFound (.addLinkModuleNotFound (str "p://a/f.ts")) = true := by
  refine ⟨by decide, by decide, rfl⟩

/-- C5 (amended): when `mutateRepository` is invoked with the manifest
produced by a successful `mutateStore` over the same action list and the
list contains no RemoveModule action, every internal module resolution
succeeds: the four module-not-found throw branches are unreachable, so
any failure is a propagated export-inspection failure. -/
theorem sync_resolution_safety (store s' : Store) (actions : List Action)
    (hok : mutateStore store actions = .ok s')
    (hnorem : ∀ a ∈ actions, a.isRemoveModule = false)
    (remote : Str → Except Str Bool) (localIns : Str → Except LocalErr Bool) (e : SyncErr)
    (herr : mutateRepository remote localIns s' actions = .error e) :
    e.isModuleNotFound = false := by
  simp only [mutateStore, duplicateStore_eq] at hok
  cases hfold : applyActions
      { modules := store.config.modules, aliases := store.config.aliases } actions with
  | error e0 => rw [hfold] at hok; cases hok
  | ok stF =>
    rw [hfold] at hok
    injection hok with hok
    subst hok
    exact mutateRepository_err
      (fun a ha => SyncResolves_postPass (applyActions_resolves hfold hnorem a ha)) herr

/-- Witness for C5 (amended): a batch whose only failure mode is a
network-inspection failure, classified as not-module-not-found. -/
theorem sync_resolution_safety_witness :
    SyncErr.isModuleNotFound (.inspectFailed (str "boom")) = false :=
  sync_resolution_safety
    (Store.mk (Config.mk [Module.mk (str "p") (str "a") (str "v") []] []))
    (Store.mk (Config.mk [Module.mk (str "p") (str "a") (str "v") [str "/f.ts"]] []))
    [.addLink (str "p://a/f.ts")]
    (by decide) (by decide)
    (fun _ => .error (str "boom")) (fun _ => .ok false)
    (.inspectFailed (str "boom")) (by decide)

-- ### C1: heap frame lemmas

theorem frameBelow_refl (n₀ : Nat) (h : Heap) : FrameBelow n₀ h h :=
  ⟨fun _ _ => rfl, Nat.le_refl _⟩

theorem frameBelow_trans {n₀ : Nat} {h h1 h2 : Heap}
    (a : FrameBelow n₀ h h1) (b : FrameBelow n₀ h1 h2) : FrameBelow n₀ h h2 :=
  ⟨fun l hl => (b.1 l hl).trans (a.1 l hl), a.2.trans b.2⟩

theorem frameBelow_mono {n₀ n₁ : Nat} {h h' : Heap} (hle : n₀ ≤ n₁)
    (a : FrameBelow n₁ h h') : FrameBelow n₀ h h' :=
  ⟨fun l hl => a.1 l (Nat.lt_of_lt_of_le hl hle), a.2⟩

theorem frameBelow_halloc (h : Heap) (c : Cell) : FrameBelow h.next h (halloc h c).2 := by
  refine ⟨fun l hl => ?_, Nat.le_succ _⟩
  unfold halloc
  simp only
  rw [if_neg (Nat.ne_of_lt hl)]

theorem frameBelow_hwrite {n₀ : Nat} (h : Heap) {l : Nat} (c : Cell) (hl : n₀ ≤ l) :
    FrameBelow n₀ h (hwrite h l c) := by
  refine ⟨fun l' hl' => ?_, Nat.le_refl _⟩
  unfold hwrite
  simp only
  rw [if_neg (Nat.ne_of_lt (Nat.lt_of_lt_of_le hl' hl))]

theorem halloc_next (h : Heap) (c : Cell) : (halloc h c).2.next = h.next + 1 := rfl

theorem halloc_fst (h : Heap) (c : Cell) : (halloc h c).1 = h.next := rfl

theorem halloc_cells_self (h : Heap) (c : Cell) : (halloc h c).2.cells h.next = some c := by
  unfold halloc
  simp

theorem halloc_cells_ne (h : Heap) (c : Cell) {l : Nat} (hl : l ≠ h.next) :
    (halloc h c).2.cells l = h.cells l := by
  unfold halloc
  simp only
  rw [if_neg hl]

theorem hwrite_cells_self (h : Heap) (l : Nat) (c : Cell) :
    (hwrite h l c).cells l = some c := by
  unfold hwrite
  simp

theorem halloc_cells_eq (h : Heap) (c : Cell) {l : Nat} (hl : l = h.next) :
    (halloc h c).2.cells l = some c := by
  subst hl
  unfold halloc
  simp

theorem hwrite_cells_eq (h : Heap) (l0 : Nat) (c : Cell) {l : Nat} (hl : l = l0) :
    (hwrite h l0 c).cells l = some c := by
  subst hl
  exact hwrite_cells_self h l c

theorem hwrite_cells_ne (h : Heap) (l : Nat) (c : Cell) {l' : Nat} (hl : l' ≠ l) :
    (hwrite h l c).cells l' = h.cells l' := by
  unfold hwrite
  simp only
  rw [if_neg hl]

theorem hwrite_next (h : Heap) (l : Nat) (c : Cell) : (hwrite h l c).next = h.next := rfl

theorem readModObjP_cells {h : Heap} {l : Nat} {mr : ModRef}
    (hr : readModObjP h l = some mr) :
    h.cells l = some (.modObj mr.protocol mr.path mr.version mr.filesLoc) := by
  unfold readModObjP at hr
  cases hc : h.cells l with
  | none => rw [hc] at hr; cases hr
  | some c =>
    rw [hc] at hr
    cases c with
    | modObj p pa v fl =>
      injection hr with hr
      subst hr
      rfl
    | strArr elems => cases hr
    | modArr elems => cases hr
    | aliasObj entries => cases hr
    | configObj a b => cases hr
    | storeObj a => cases hr

theorem readModArrP_cells {h : Heap} {l : Nat} {mls : List Nat}
    (hr : readModArrP h l = some mls) : h.cells l = some (.modArr mls) := by
  unfold readModArrP at hr
  cases hc : h.cells l with
  | none => rw [hc] at hr; cases hr
  | some c =>
    rw [hc] at hr
    cases c with
    | modArr elems =>
      injection hr with hr
      subst hr
      rfl
    | strArr elems => cases hr
    | modObj p pa v fl => cases hr
    | aliasObj entries => cases hr
    | configObj a b => cases hr
    | storeObj a => cases hr

theorem readModPairsP_spec {h : Heap} :
    ∀ {mls : List Nat} {prs : List (Nat × ModRef)}, readModPairsP h mls = some prs →
      prs.map Prod.fst = mls ∧ ∀ pr ∈ prs, readModObjP h pr.1 = some pr.2 := by
  intro mls
  induction mls with
  | nil =>
    intro prs hp
    injection hp with hp
    subst hp
    exact ⟨rfl, by intro pr hpr; simp at hpr⟩
  | cons ml rest ih =>
    intro prs hp
    simp only [readModPairsP] at hp
    cases ho : readModObjP h ml with
    | none => rw [ho] at hp; cases hp
    | some mr =>
      rw [ho] at hp
      cases hrec : readModPairsP h rest with
      | none => rw [hrec] at hp; cases hp
      | some prs' =>
        rw [hrec] at hp
        injection hp with hp
        subst hp
        obtain ⟨hmap, hall⟩ := ih hrec
        refine ⟨by simp [hmap], ?_⟩
        intro pr hpr
        rcases List.mem_cons.mp hpr with rfl | hpr'
        · exact ho
        · exact hall pr hpr'

theorem dupModuleH_spec (h : Heap) (ml : Nat) :
    FrameBelow h.next h (dupModuleH h ml).2 ∧
    (∀ l', (dupModuleH h ml).1 = some l' →
      h.next ≤ l' ∧ l' < (dupModuleH h ml).2.next ∧
      ∃ p pa v fl, (dupModuleH h ml).2.cells l' = some (.modObj p pa v fl) ∧
        h.next ≤ fl) := by
  cases ho : readModObjP h ml with
  | none =>
    simp only [dupModuleH, ho]
    exact ⟨frameBelow_refl _ _, fun l' h' => by cases h'⟩
  | some mr =>
    cases hs : readStrArrP h mr.filesLoc with
    | none =>
      simp only [dupModuleH, ho, hs]
      exact ⟨frameBelow_refl _ _, fun l' h' => by cases h'⟩
    | some files =>
      simp only [dupModuleH, ho, hs]
      constructor
      · exact frameBelow_trans (frameBelow_halloc h _)
          (frameBelow_mono (Nat.le_succ _)
            (frameBelow_halloc (halloc h (Cell.strArr files)).2 _))
      · intro l' h'
        injection h' with h'
        subst h'
        refine ⟨Nat.le_succ _, Nat.lt_succ_self _,
          mr.protocol, mr.path, mr.version, h.next, ?_, Nat.le_refl _⟩
        exact halloc_cells_self _ _

theorem dupModulesH_spec :
    ∀ (mls : List Nat) (h : Heap),
      FrameBelow h.next h (dupModulesH h mls).2 ∧
      (∀ mls', (dupModulesH h mls).1 = some mls' →
        ∀ l' ∈ mls', h.next ≤ l' ∧ l' < (dupModulesH h mls).2.next ∧
          ∃ p pa v fl, (dupModulesH h mls).2.cells l' = some (.modObj p pa v fl) ∧
            h.next ≤ fl)
  | [], h => by
    refine ⟨frameBelow_refl _ _, ?_⟩
    intro mls' h' l' hl'
    injection h' with h'
    subst h'
    simp at hl'
  | ml :: rest, h => by
    cases hdm : dupModuleH h ml with
    | mk r1 h1 =>
      have hd := dupModuleH_spec h ml
      rw [hdm] at hd
      cases r1 with
      | none =>
        simp only [dupModulesH, hdm]
        exact ⟨hd.1, fun mls' h' => by cases h'⟩
      | some ml1 =>
        obtain ⟨hml1a, hml1b, p0, pa0, v0, fl0, hcell0, hfl0⟩ := hd.2 ml1 rfl
        have hr := dupModulesH_spec rest h1
        cases hrec : dupModulesH h1 rest with
        | mk r2 h2 =>
          rw [hrec] at hr
          cases r2 with
          | none =>
            simp only [dupModulesH, hdm, hrec]
            exact ⟨frameBelow_trans hd.1 (frameBelow_mono hd.1.2 hr.1),
              fun mls' h' => by cases h'⟩
          | some rest' =>
            simp only [dupModulesH, hdm, hrec]
            refine ⟨frameBelow_trans hd.1 (frameBelow_mono hd.1.2 hr.1), ?_⟩
            intro mls' h' l' hl'
            injection h' with h'
            subst h'
            rcases List.mem_cons.mp hl' with rfl | hl''
            · refine ⟨hml1a, Nat.lt_of_lt_of_le hml1b hr.1.2,
                p0, pa0, v0, fl0, ?_, hfl0⟩
              rw [hr.1.1 l' hml1b]
              exact hcell0
            · obtain ⟨ha, hb, p1, pa1, v1, fl1, hcell1, hfl1⟩ := hr.2 rest' rfl l' hl''
              exact ⟨hd.1.2.trans ha, hb, p1, pa1, v1, fl1, hcell1, hd.1.2.trans hfl1⟩

theorem duplicateStoreH_spec (h : Heap) (storeLoc : Nat) :
    FrameBelow h.next h (duplicateStoreH h storeLoc).2 ∧
    (∀ sLoc, (duplicateStoreH h storeLoc).1 = some sLoc →
      ∃ configLoc modulesLoc aliasesLoc,
        readStoreP (duplicateStoreH h storeLoc).2 sLoc = some configLoc ∧
        readConfigP (duplicateStoreH h storeLoc).2 configLoc = some (modulesLoc, aliasesLoc) ∧
        h.next ≤ configLoc ∧
        ModLocsOk h.next (duplicateStoreH h storeLoc).2 modulesLoc) := by
  cases hrs : readStoreP h storeLoc with
  | none =>
    simp only [duplicateStoreH, hrs]
    exact ⟨frameBelow_refl _ _, fun s h' => by cases h'⟩
  | some configLoc0 =>
    cases hrc : readConfigP h configLoc0 with
    | none =>
      simp only [duplicateStoreH, hrs, hrc]
      exact ⟨frameBelow_refl _ _, fun s h' => by cases h'⟩
    | some pr =>
      obtain ⟨modulesLoc0, aliasesLoc0⟩ := pr
      cases hrm : readModArrP h modulesLoc0 with
      | none =>
        simp only [duplicateStoreH, hrs, hrc, hrm]
        exact ⟨frameBelow_refl _ _, fun s h' => by cases h'⟩
      | some mls =>
        have hdms := dupModulesH_spec mls h
        cases hdm : dupModulesH h mls with
        | mk r1 h1 =>
          rw [hdm] at hdms
          cases r1 with
          | none =>
            simp only [duplicateStoreH, hrs, hrc, hrm, hdm]
            exact ⟨hdms.1, fun s h' => by cases h'⟩
          | some mls' =>
            cases hra : readAliasObjP h1 aliasesLoc0 with
            | none =>
              simp only [duplicateStoreH, hrs, hrc, hrm, hdm, hra]
              exact ⟨hdms.1, fun s h' => by cases h'⟩
            | some entries =>
              simp only [duplicateStoreH, hrs, hrc, hrm, hdm, hra]
              have hfr1 : ∀ l, l < h.next → h1.cells l = h.cells l := hdms.1.1
              have hfr2 : h.next ≤ h1.next := hdms.1.2
              have hels : ∀ l' ∈ mls', h.next ≤ l' ∧ l' < h1.next ∧
                  ∃ p pa v fl, h1.cells l' = some (.modObj p pa v fl) ∧ h.next ≤ fl :=
                hdms.2 mls' rfl
              constructor
              · refine ⟨fun l hl => ?_, ?_⟩
                · have hlt : l < h1.next := Nat.lt_of_lt_of_le hl hfr2
                  rw [halloc_cells_ne, halloc_cells_ne, halloc_cells_ne,
                    halloc_cells_ne, hfr1 l hl]
                  all_goals try simp only [halloc_next]
                  all_goals omega
                · simp only [halloc_next]
                  omega
              · intro sLoc h'
                injection h' with h'
                subst h'
                refine ⟨h1.next + 2, h1.next, h1.next + 1, ?_, ?_, ?_, ?_⟩
                · unfold readStoreP
                  rw [halloc_cells_eq]
                  all_goals simp only [halloc_fst, halloc_next, Option.some.injEq]
                · unfold readConfigP
                  rw [halloc_cells_ne, halloc_cells_eq]
                  all_goals simp only [halloc_fst, halloc_next, Option.some.injEq,
                    Prod.mk.injEq]
                  all_goals omega
                · omega
                · constructor
                  · exact hfr2
                  · intro mlsX hX
                    rw [halloc_cells_ne, halloc_cells_ne, halloc_cells_ne,
                      halloc_cells_eq] at hX
                    rotate_left
                    · rfl
                    · simp only [halloc_next]; omega
                    · simp only [halloc_next]; omega
                    · simp only [halloc_next]; omega
                    injection hX with hX
                    injection hX with hX
                    subst hX
                    intro l' hl'
                    obtain ⟨ha, hb, p1, pa1, v1, fl1, hcell1, hfl1⟩ := hels l' hl'
                    refine ⟨ha, ?_⟩
                    intro p pa v fl hcells
                    rw [halloc_cells_ne, halloc_cells_ne, halloc_cells_ne,
                      halloc_cells_ne, hcell1] at hcells
                    rotate_left
                    · omega
                    · simp only [halloc_next]; omega
                    · simp only [halloc_next]; omega
                    · simp only [halloc_next]; omega
                    injection hcells with hcells
                    injection hcells with e1 e2 e3 e4
                    subst e4
                    exact hfl1
theorem modLocsOk_write_arr {n₀ : Nat} {h : Heap} {modulesLoc : Nat} {newMls : List Nat}
    (hloc : n₀ ≤ modulesLoc) (hgl : GoodList n₀ h newMls) :
    ModLocsOk n₀ (hwrite h modulesLoc (.modArr newMls)) modulesLoc := by
  refine ⟨hloc, ?_⟩
  intro mlsX hX
  rw [hwrite_cells_self] at hX
  injection hX with hX
  injection hX with hX
  subst hX
  intro ml hml
  obtain ⟨ha, hb⟩ := hgl ml hml
  refine ⟨ha, ?_⟩
  intro p pa v fl hc
  by_cases hml2 : ml = modulesLoc
  · rw [hml2, hwrite_cells_self] at hc
    injection hc with hc
    cases hc
  · rw [hwrite_cells_ne _ _ _ hml2] at hc
    exact hb p pa v fl hc

theorem modLocsOk_write_other {n₀ : Nat} {h : Heap} {modulesLoc L : Nat} {c : Cell}
    (hok : ModLocsOk n₀ h modulesLoc)
    (harr : ∀ mlsY, c ≠ .modArr mlsY)
    (hobj : ∀ p pa v fl, c = .modObj p pa v fl → n₀ ≤ fl) :
    ModLocsOk n₀ (hwrite h L c) modulesLoc := by
  refine ⟨hok.1, ?_⟩
  intro mlsX hX
  by_cases hLm : modulesLoc = L
  · rw [hLm, hwrite_cells_self] at hX
    injection hX with hX
    exact absurd hX (harr mlsX)
  · rw [hwrite_cells_ne _ _ _ hLm] at hX
    have hgl := hok.2 mlsX hX
    intro ml hml
    obtain ⟨ha, hb⟩ := hgl ml hml
    refine ⟨ha, ?_⟩
    intro p pa v fl hc
    by_cases hml2 : ml = L
    · rw [hml2, hwrite_cells_self] at hc
      injection hc with hc
      exact hobj p pa v fl hc
    · rw [hwrite_cells_ne _ _ _ hml2] at hc
      exact hb p pa v fl hc

theorem frameBelow_halloc' {n₀ : Nat} (h : Heap) (c : Cell) (hn : n₀ ≤ h.next) :
    FrameBelow n₀ h (halloc h c).2 :=
  frameBelow_mono hn (frameBelow_halloc h c)

theorem goodList_append {n₀ : Nat} {h : Heap} {a b : List Nat}
    (ha : GoodList n₀ h a) (hb : GoodList n₀ h b) : GoodList n₀ h (a ++ b) := by
  intro ml hml
  rcases List.mem_append.mp hml with hm | hm
  · exact ha ml hm
  · exact hb ml hm

theorem goodList_halloc {n₀ : Nat} {h : Heap} {c : Cell} {locs : List Nat}
    (hgl : GoodList n₀ h locs)
    (hobj : ∀ p pa v fl, c = .modObj p pa v fl → n₀ ≤ fl) :
    GoodList n₀ (halloc h c).2 locs := by
  intro ml hml
  obtain ⟨ha, hb⟩ := hgl ml hml
  refine ⟨ha, ?_⟩
  intro p pa v fl hc
  by_cases e : ml = h.next
  · rw [e, halloc_cells_self] at hc
    injection hc with hc
    exact hobj p pa v fl hc
  · rw [halloc_cells_ne _ _ e] at hc
    exact hb p pa v fl hc

theorem modLocsOk_halloc {n₀ : Nat} {h : Heap} {modulesLoc : Nat} {c : Cell}
    (hok : ModLocsOk n₀ h modulesLoc)
    (harr : ∀ mlsY, c ≠ .modArr mlsY)
    (hobj : ∀ p pa v fl, c = .modObj p pa v fl → n₀ ≤ fl) :
    ModLocsOk n₀ (halloc h c).2 modulesLoc := by
  refine ⟨hok.1, ?_⟩
  intro mlsX hX
  by_cases e : modulesLoc = h.next
  · rw [e, halloc_cells_self] at hX
    injection hX with hX
    exact absurd hX (harr mlsX)
  · rw [halloc_cells_ne _ _ e] at hX
    exact goodList_halloc (hok.2 mlsX hX) hobj

theorem applyActionH_frame {n₀ : Nat} {h : Heap} {modulesLoc : Nat}
    {aliases : List (Str × Str)} (a : Action)
    (hn : n₀ ≤ h.next) (hok : ModLocsOk n₀ h modulesLoc) :
    FrameBelow n₀ h (applyActionH h modulesLoc aliases a).2 ∧
      n₀ ≤ (applyActionH h modulesLoc aliases a).2.next ∧
      ModLocsOk n₀ (applyActionH h modulesLoc aliases a).2 modulesLoc := by
  cases a with
  | addModule module =>
    cases hma : readModArrP h modulesLoc with
    | none =>
      simp only [applyActionH, hma]
      exact ⟨frameBelow_refl _ _, hn, hok⟩
    | some mls =>
      cases hmp : readModPairsP h mls with
      | none =>
        simp only [applyActionH, hma, hmp]
        exact ⟨frameBelow_refl _ _, hn, hok⟩
      | some prs =>
        cases hdup : prs.any (fun pr => moduleEqualsR pr.2 module) with
        | true =>
          simp only [applyActionH, hma, hmp, hdup, if_true]
          exact ⟨frameBelow_refl _ _, hn, hok⟩
        | false =>
          simp only [applyActionH, hma, hmp, hdup, Bool.false_eq_true, if_false]
          have hGL : GoodList n₀ h mls := hok.2 mls (readModArrP_cells hma)
          have hobjA : ∀ p pa v fl,
              Cell.strArr module.files = Cell.modObj p pa v fl → n₀ ≤ fl := by
            intro p pa v fl hc
            cases hc
          have hobjB : ∀ p pa v fl,
              Cell.modObj module.protocol module.path module.version
                (halloc h (Cell.strArr module.files)).1 = Cell.modObj p pa v fl → n₀ ≤ fl := by
            intro p pa v fl hc
            injection hc with q1 q2 q3 q4
            rw [halloc_fst] at q4
            omega
          refine ⟨?_, ?_, ?_⟩
          · refine frameBelow_trans (frameBelow_halloc' h (Cell.strArr module.files) hn) ?_
            refine frameBelow_trans
              (frameBelow_halloc' (halloc h (Cell.strArr module.files)).2
                (Cell.modObj module.protocol module.path module.version
                  (halloc h (Cell.strArr module.files)).1) ?_)
              (frameBelow_hwrite _ _ hok.1)
            simp only [halloc_next]
            omega
          · simp only [hwrite_next, halloc_next]
            omega
          · refine modLocsOk_write_arr hok.1 ?_
            refine goodList_append (goodList_halloc (goodList_halloc hGL hobjA) hobjB) ?_
            intro ml hml
            simp only [List.mem_singleton] at hml
            subst hml
            refine ⟨?_, ?_⟩
            · simp only [halloc_fst, halloc_next]
              omega
            · intro p pa v fl hc
              simp only [halloc_fst] at hc
              rw [halloc_cells_self] at hc
              injection hc with hc
              injection hc with q1 q2 q3 q4
              omega
  | removeModule moduleProtocol modulePath =>
    cases hma : readModArrP h modulesLoc with
    | none =>
      simp only [applyActionH, hma]
      exact ⟨frameBelow_refl _ _, hn, hok⟩
    | some mls =>
      cases hmp : readModPairsP h mls with
      | none =>
        simp only [applyActionH, hma, hmp]
        exact ⟨frameBelow_refl _ _, hn, hok⟩
      | some prs =>
        cases hfind : prs.findIdx?
            (fun pr => pr.2.toStr.isPrefixOf (moduleProtocol ++ str "://" ++ modulePath)) with
        | none =>
          simp only [applyActionH, hma, hmp, hfind]
          exact ⟨frameBelow_refl _ _, hn, hok⟩
        | some i =>
          simp only [applyActionH, hma, hmp, hfind]
          have hGL : GoodList n₀ h mls := hok.2 mls (readModArrP_cells hma)
          refine ⟨frameBelow_hwrite _ _ hok.1, ?_, ?_⟩
          · simp only [hwrite_next]
            omega
          · refine modLocsOk_write_arr hok.1 ?_
            intro ml hml
            exact hGL ml (List.mem_of_mem_eraseIdx hml)
  | addLink link =>
    cases hma : readModArrP h modulesLoc with
    | none =>
      simp only [applyActionH, hma]
      exact ⟨frameBelow_refl _ _, hn, hok⟩
    | some mls =>
      cases hmp : readModPairsP h mls with
      | none =>
        simp only [applyActionH, hma, hmp]
        exact ⟨frameBelow_refl _ _, hn, hok⟩
      | some prs =>
        cases hfind : prs.find? (fun pr => pr.2.toStr.isPrefixOf link) with
        | none =>
          simp only [applyActionH, hma, hmp, hfind]
          exact ⟨frameBelow_refl _ _, hn, hok⟩
        | some pr =>
          cases hsa : readStrArrP h pr.2.filesLoc with
          | none =>
            simp only [applyActionH, hma, hmp, hfind, hsa]
            exact ⟨frameBelow_refl _ _, hn, hok⟩
          | some files =>
            have hspec := readModPairsP_spec hmp
            have hprmem : pr ∈ prs := List.mem_of_find?_eq_some hfind
            have hpr1 : pr.1 ∈ mls := by
              rw [← hspec.1]
              exact List.mem_map.mpr ⟨pr, hprmem, rfl⟩
            have hGL : GoodList n₀ h mls := hok.2 mls (readModArrP_cells hma)
            have hfl : n₀ ≤ pr.2.filesLoc :=
              (hGL pr.1 hpr1).2 _ _ _ _ (readModObjP_cells (hspec.2 pr hprmem))
            cases hcont : files.contains ((jsSplit pr.2.toStr link).getD 1 []) with
            | true =>
              simp only [applyActionH, hma, hmp, hfind, hsa, hcont, if_true]
              exact ⟨frameBelow_refl _ _, hn, hok⟩
            | false =>
              simp only [applyActionH, hma, hmp, hfind, hsa, hcont,
                Bool.false_eq_true, if_false]
              refine ⟨frameBelow_hwrite _ _ hfl, ?_, ?_⟩
              · simp only [hwrite_next]
                omega
              · exact modLocsOk_write_other hok (fun mlsY hc => by cases hc)
                  (fun p pa v fl hc => by cases hc)
  | removeLink link =>
    cases hma : readModArrP h modulesLoc with
    | none =>
      simp only [applyActionH, hma]
      exact ⟨frameBelow_refl _ _, hn, hok⟩
    | some mls =>
      cases hmp : readModPairsP h mls with
      | none =>
        simp only [applyActionH, hma, hmp]
        exact ⟨frameBelow_refl _ _, hn, hok⟩
      | some prs =>
        cases hfind : prs.find? (fun pr => pr.2.toStr.isPrefixOf link) with
        | none =>
          simp only [applyActionH, hma, hmp, hfind]
          exact ⟨frameBelow_refl _ _, hn, hok⟩
        | some pr =>
          cases hsa : readStrArrP h pr.2.filesLoc with
          | none =>
            simp only [applyActionH, hma, hmp, hfind, hsa]
            exact ⟨frameBelow_refl _ _, hn, hok⟩
          | some files =>
            have hspec := readModPairsP_spec hmp
            have hprmem : pr ∈ prs := List.mem_of_find?_eq_some hfind
            have hpr1 : pr.1 ∈ mls := by
              rw [← hspec.1]
              exact List.mem_map.mpr ⟨pr, hprmem, rfl⟩
            have hGL : GoodList n₀ h mls := hok.2 mls (readModArrP_cells hma)
            have hfl : n₀ ≤ pr.2.filesLoc :=
              (hGL pr.1 hpr1).2 _ _ _ _ (readModObjP_cells (hspec.2 pr hprmem))
            cases hcont : files.contains ((jsSplit pr.2.toStr link).getD 1 []) with
            | false =>
              simp only [applyActionH, hma, hmp, hfind, hsa, hcont,
                Bool.false_eq_true, if_false]
              exact ⟨frameBelow_refl _ _, hn, hok⟩
            | true =>
              simp only [applyActionH, hma, hmp, hfind, hsa, hcont, if_true]
              refine ⟨frameBelow_hwrite _ _ hfl, ?_, ?_⟩
              · simp only [hwrite_next]
                omega
              · exact modLocsOk_write_other hok (fun mlsY hc => by cases hc)
                  (fun p pa v fl hc => by cases hc)
  | addAlias aliasPath aliasTargetPath =>
    cases htr : truthy (getAlias aliases aliasPath) with
    | true =>
      simp only [applyActionH, htr, if_true]
      exact ⟨frameBelow_refl _ _, hn, hok⟩
    | false =>
      cases hma : readModArrP h modulesLoc with
      | none =>
        simp only [applyActionH, htr, Bool.false_eq_true, if_false, hma]
        exact ⟨frameBelow_refl _ _, hn, hok⟩
      | some mls =>
        cases hmp : readModPairsP h mls with
        | none =>
          simp only [applyActionH, htr, Bool.false_eq_true, if_false, hma, hmp]
          exact ⟨frameBelow_refl _ _, hn, hok⟩
        | some prs =>
          cases hfind : prs.find? (fun pr => pr.2.toStr.isPrefixOf aliasTargetPath) with
          | none =>
            simp only [applyActionH, htr, Bool.false_eq_true, if_false, hma, hmp, hfind]
            exact ⟨frameBelow_refl _ _, hn, hok⟩
          | some pr =>
            simp only [applyActionH, htr, Bool.false_eq_true, if_false, hma, hmp, hfind]
            exact ⟨frameBelow_refl _ _, hn, hok⟩
  | removeAlias aliasPath =>
    cases htr : truthy (getAlias aliases aliasPath) with
    | true =>
      simp only [applyActionH, htr, if_true]
      exact ⟨frameBelow_refl _ _, hn, hok⟩
    | false =>
      simp only [applyActionH, htr, Bool.false_eq_true, if_false]
      exact ⟨frameBelow_refl _ _, hn, hok⟩
  | updateModule moduleProtocol modulePath moduleVersion =>
    cases hma : readModArrP h modulesLoc with
    | none =>
      simp only [applyActionH, hma]
      exact ⟨frameBelow_refl _ _, hn, hok⟩
    | some mls =>
      cases hmp : readModPairsP h mls with
      | none =>
        simp only [applyActionH, hma, hmp]
        exact ⟨frameBelow_refl _ _, hn, hok⟩
      | some prs =>
        cases hfind : prs.find?
            (fun pr => pr.2.protocol == moduleProtocol && pr.2.path == modulePath) with
        | none =>
          simp only [applyActionH, hma, hmp, hfind]
          exact ⟨frameBelow_refl _ _, hn, hok⟩
        | some pr =>
          simp only [applyActionH, hma, hmp, hfind]
          have hspec := readModPairsP_spec hmp
          have hprmem : pr ∈ prs := List.mem_of_find?_eq_some hfind
          have hpr1 : pr.1 ∈ mls := by
            rw [← hspec.1]
            exact List.mem_map.mpr ⟨pr, hprmem, rfl⟩
          have hGL : GoodList n₀ h mls := hok.2 mls (readModArrP_cells hma)
          have hl1 : n₀ ≤ pr.1 := (hGL pr.1 hpr1).1
          have hfl : n₀ ≤ pr.2.filesLoc :=
            (hGL pr.1 hpr1).2 _ _ _ _ (readModObjP_cells (hspec.2 pr hprmem))
          refine ⟨frameBelow_hwrite _ _ hl1, ?_, ?_⟩
          · simp only [hwrite_next]
            omega
          · refine modLocsOk_write_other hok (fun mlsY hc => by cases hc) ?_
            intro p pa v fl hc
            injection hc with q1 q2 q3 q4
            omega

theorem applyActionsH_frame :
    ∀ (actions : List Action) {n₀ : Nat} (h : Heap) (modulesLoc : Nat)
      (aliases : List (Str × Str)),
      n₀ ≤ h.next → ModLocsOk n₀ h modulesLoc →
      FrameBelow n₀ h (applyActionsH h modulesLoc aliases actions).2 ∧
        n₀ ≤ (applyActionsH h modulesLoc aliases actions).2.next ∧
        ModLocsOk n₀ (applyActionsH h modulesLoc aliases actions).2 modulesLoc
  | [], _, h, modulesLoc, aliases => fun hn hok => ⟨frameBelow_refl _ _, hn, hok⟩
  | a :: rest, n₀, h, modulesLoc, aliases => fun hn hok => by
    have h1f := @applyActionH_frame n₀ h modulesLoc aliases a hn hok
    cases happ : applyActionH h modulesLoc aliases a with
    | mk r h1 =>
      rw [happ] at h1f
      cases r with
      | error e =>
        simp only [applyActionsH, happ]
        exact h1f
      | ok aliases1 =>
        simp only [applyActionsH, happ]
        have h2f := applyActionsH_frame rest h1 modulesLoc aliases1 h1f.2.1 h1f.2.2
        exact ⟨frameBelow_trans h1f.1 h2f.1, h2f.2.1, h2f.2.2⟩

theorem goodList_hwrite {n₀ : Nat} {h : Heap} {L : Nat} {c : Cell} {locs : List Nat}
    (hgl : GoodList n₀ h locs)
    (hobj : ∀ p pa v fl, c = .modObj p pa v fl → n₀ ≤ fl) :
    GoodList n₀ (hwrite h L c) locs := by
  intro ml hml
  obtain ⟨ha, hb⟩ := hgl ml hml
  refine ⟨ha, ?_⟩
  intro p pa v fl hc
  by_cases e : ml = L
  · rw [e, hwrite_cells_self] at hc
    injection hc with hc
    exact hobj p pa v fl hc
  · rw [hwrite_cells_ne _ _ _ e] at hc
    exact hb p pa v fl hc

theorem sortFilesH_frame :
    ∀ (locs : List Nat) {n₀ : Nat} (h : Heap),
      n₀ ≤ h.next → GoodList n₀ h locs →
      FrameBelow n₀ h (sortFilesH h locs).2 ∧ n₀ ≤ (sortFilesH h locs).2.next
  | [], _, h => fun hn _ => ⟨frameBelow_refl _ _, hn⟩
  | ml :: rest, n₀, h => fun hn hgl => by
    cases ho : readModObjP h ml with
    | none =>
      simp only [sortFilesH, ho]
      exact ⟨frameBelow_refl _ _, hn⟩
    | some mr =>
      cases hs : readStrArrP h mr.filesLoc with
      | none =>
        simp only [sortFilesH, ho, hs]
        exact ⟨frameBelow_refl _ _, hn⟩
      | some files =>
        simp only [sortFilesH, ho, hs]
        have hfl : n₀ ≤ mr.filesLoc :=
          (hgl ml (List.mem_cons_self ml rest)).2 _ _ _ _ (readModObjP_cells ho)
        have hgl' : GoodList n₀
            (hwrite h mr.filesLoc (.strArr (files.insertionSort StrLe))) rest :=
          goodList_hwrite (fun l hl => hgl l (List.mem_cons_of_mem _ hl))
            (fun p pa v fl hc => by cases hc)
        have h2f := sortFilesH_frame rest
          (hwrite h mr.filesLoc (.strArr (files.insertionSort StrLe)))
          (by simp only [hwrite_next]; exact hn) hgl'
        exact ⟨frameBelow_trans (frameBelow_hwrite _ _ hfl) h2f.1, h2f.2⟩

theorem mutateStoreH_frame (h : Heap) (storeLoc : Nat) (actions : List Action) :
    FrameBelow h.next h (mutateStoreH h storeLoc actions).2 := by
  have hdup := duplicateStoreH_spec h storeLoc
  cases hd : duplicateStoreH h storeLoc with
  | mk r1 h1 =>
    rw [hd] at hdup
    have hdupF : FrameBelow h.next h h1 := hdup.1
    cases r1 with
    | none =>
      simp only [mutateStoreH, hd]
      exact hdupF
    | some sLoc =>
      obtain ⟨configLoc, modulesLoc, aliasesLoc, hrs0, hrc0, hcfg, hok1⟩ := hdup.2 sLoc rfl
      have hrs0' : readStoreP h1 sLoc = some configLoc := hrs0
      have hrc0' : readConfigP h1 configLoc = some (modulesLoc, aliasesLoc) := hrc0
      have hok1' : ModLocsOk h.next h1 modulesLoc := hok1
      cases hrs : readStoreP h1 sLoc with
      | none =>
        simp only [mutateStoreH, hd, hrs]
        exact hdupF
      | some configLoc' =>
        have he1 := hrs0'.symm.trans hrs
        injection he1 with he1
        subst he1
        cases hrc : readConfigP h1 configLoc with
        | none =>
          simp only [mutateStoreH, hd, hrs, hrc]
          exact hdupF
        | some pq =>
          have he2 := hrc0'.symm.trans hrc
          injection he2 with he2
          subst he2
          cases hra : readAliasObjP h1 aliasesLoc with
          | none =>
            simp only [mutateStoreH, hd, hrs, hrc, hra]
            exact hdupF
          | some entries0 =>
            have happF := applyActionsH_frame actions h1 modulesLoc
              (entries0.map (fun e => (e.1, e.2))) hdupF.2 hok1'
            cases happ : applyActionsH h1 modulesLoc
                (entries0.map (fun e => (e.1, e.2))) actions with
            | mk r2 h2 =>
              rw [happ] at happF
              cases r2 with
              | error e =>
                simp only [mutateStoreH, hd, hrs, hrc, hra, happ]
                exact frameBelow_trans hdupF happF.1
              | ok aliases1 =>
                have hok2 : ModLocsOk h.next h2 modulesLoc := happF.2.2
                cases hma2 : readModArrP h2 modulesLoc with
                | none =>
                  simp only [mutateStoreH, hd, hrs, hrc, hra, happ, hma2]
                  exact frameBelow_trans hdupF happF.1
                | some mls2 =>
                  cases hmp2 : readModPairsP h2 mls2 with
                  | none =>
                    simp only [mutateStoreH, hd, hrs, hrc, hra, happ, hma2, hmp2]
                    exact frameBelow_trans hdupF happF.1
                  | some prs2 =>
                    have hgl2 : GoodList h.next h2 mls2 :=
                      hok2.2 mls2 (readModArrP_cells hma2)
                    have hsubset : ∀ x ∈ (prs2.insertionSort PairLe).map
                        (fun pr => pr.1), x ∈ mls2 := by
                      intro x hx
                      obtain ⟨pr, hpr, rfl⟩ := List.mem_map.mp hx
                      have hpr' : pr ∈ prs2 :=
                        (List.perm_insertionSort PairLe prs2).subset hpr
                      rw [← (readModPairsP_spec hmp2).1]
                      exact List.mem_map.mpr ⟨pr, hpr', rfl⟩
                    have hglS : GoodList h.next h2
                        ((prs2.insertionSort PairLe).map (fun pr => pr.1)) :=
                      fun ml hml => hgl2 ml (hsubset ml hml)
                    have hglS3 : GoodList h.next
                        (hwrite h2 modulesLoc
                          (.modArr ((prs2.insertionSort PairLe).map (fun pr => pr.1))))
                        ((prs2.insertionSort PairLe).map (fun pr => pr.1)) :=
                      goodList_hwrite hglS (fun p pa v fl hc => by cases hc)
                    have hsf := sortFilesH_frame
                      ((prs2.insertionSort PairLe).map (fun pr => pr.1))
                      (hwrite h2 modulesLoc
                        (.modArr ((prs2.insertionSort PairLe).map (fun pr => pr.1))))
                      (by simp only [hwrite_next]; exact happF.2.1) hglS3
                    have hpre : FrameBelow h.next h
                        (hwrite h2 modulesLoc
                          (.modArr ((prs2.insertionSort PairLe).map (fun pr => pr.1)))) :=
                      frameBelow_trans hdupF
                        (frameBelow_trans happF.1 (frameBelow_hwrite _ _ hok2.1))
                    cases hsfc : sortFilesH
                        (hwrite h2 modulesLoc
                          (.modArr ((prs2.insertionSort PairLe).map (fun pr => pr.1))))
                        ((prs2.insertionSort PairLe).map (fun pr => pr.1)) with
                    | mk r3 h4 =>
                      rw [hsfc] at hsf
                      cases r3 with
                      | error e =>
                        simp only [mutateStoreH, hd, hrs, hrc, hra, happ, hma2, hmp2, hsfc]
                        exact frameBelow_trans hpre hsf.1
                      | ok u =>
                        simp only [mutateStoreH, hd, hrs, hrc, hra, happ, hma2, hmp2, hsfc]
                        refine frameBelow_trans hpre (frameBelow_trans hsf.1 ?_)
                        refine frameBelow_trans
                          (frameBelow_halloc' h4
                            (Cell.aliasObj (fromEntries (aliases1.insertionSort EntryLe)))
                            hsf.2)
                          (frameBelow_hwrite _ _ hcfg)

theorem readStoreP_cells {h : Heap} {l : Nat} {configLoc : Nat}
    (hr : readStoreP h l = some configLoc) : h.cells l = some (.storeObj configLoc) := by
  unfold readStoreP at hr
  cases hc : h.cells l with
  | none => rw [hc] at hr; cases hr
  | some c =>
    rw [hc] at hr
    cases c with
    | storeObj a =>
      injection hr with hr
      subst hr
      rfl
    | strArr elems => cases hr
    | modObj p pa v fl => cases hr
    | modArr elems => cases hr
    | aliasObj entries => cases hr
    | configObj a b => cases hr

theorem readConfigP_cells {h : Heap} {l : Nat} {pq : Nat × Nat}
    (hr : readConfigP h l = some pq) : h.cells l = some (.configObj pq.1 pq.2) := by
  unfold readConfigP at hr
  cases hc : h.cells l with
  | none => rw [hc] at hr; cases hr
  | some c =>
    rw [hc] at hr
    cases c with
    | configObj a b =>
      injection hr with hr
      subst hr
      rfl
    | strArr elems => cases hr
    | modObj p pa v fl => cases hr
    | modArr elems => cases hr
    | aliasObj entries => cases hr
    | storeObj a => cases hr

theorem readStrArrP_cells {h : Heap} {l : Nat} {fs : List Str}
    (hr : readStrArrP h l = some fs) : h.cells l = some (.strArr fs) := by
  unfold readStrArrP at hr
  cases hc : h.cells l with
  | none => rw [hc] at hr; cases hr
  | some c =>
    rw [hc] at hr
    cases c with
    | strArr elems =>
      injection hr with hr
      subst hr
      rfl
    | modObj p pa v fl => cases hr
    | modArr elems => cases hr
    | aliasObj entries => cases hr
    | configObj a b => cases hr
    | storeObj a => cases hr

theorem readAliasObjP_cells {h : Heap} {l : Nat} {es : List (Str × Str)}
    (hr : readAliasObjP h l = some es) : h.cells l = some (.aliasObj es) := by
  unfold readAliasObjP at hr
  cases hc : h.cells l with
  | none => rw [hc] at hr; cases hr
  | some c =>
    rw [hc] at hr
    cases c with
    | aliasObj entries =>
      injection hr with hr
      subst hr
      rfl
    | strArr elems => cases hr
    | modObj p pa v fl => cases hr
    | modArr elems => cases hr
    | configObj a b => cases hr
    | storeObj a => cases hr

theorem cells_preserved {h h' : Heap}
    (hfr : ∀ l, l < h.next → h'.cells l = h.cells l)
    (hclosed : ∀ l, h.next ≤ l → h.cells l = none) :
    ∀ (l : Nat) (c : Cell), h.cells l = some c → h'.cells l = some c := by
  intro l c hc
  by_cases hl : l < h.next
  · rw [hfr l hl]
    exact hc
  · rw [hclosed l (Nat.le_of_not_lt hl)] at hc
    cases hc

theorem readModuleValueP_mono {h h' : Heap}
    (hp : ∀ (l : Nat) (c : Cell), h.cells l = some c → h'.cells l = some c) :
    ∀ {ml : Nat} {m : Module}, readModuleValueP h ml = some m →
      readModuleValueP h' ml = some m := by
  intro ml m hm
  unfold readModuleValueP at hm ⊢
  cases ho : readModObjP h ml with
  | none => rw [ho] at hm; cases hm
  | some mr =>
    simp only [ho] at hm
    have ho' : readModObjP h' ml = some mr := by
      unfold readModObjP
      rw [hp _ _ (readModObjP_cells ho)]
    simp only [ho']
    cases hs : readStrArrP h mr.filesLoc with
    | none => rw [hs] at hm; cases hm
    | some files =>
      simp only [hs] at hm
      have hs' : readStrArrP h' mr.filesLoc = some files := by
        unfold readStrArrP
        rw [hp _ _ (readStrArrP_cells hs)]
      simp only [hs']
      exact hm

theorem readModuleValuesP_mono {h h' : Heap}
    (hp : ∀ (l : Nat) (c : Cell), h.cells l = some c → h'.cells l = some c) :
    ∀ {mls : List Nat} {ms : List Module}, readModuleValuesP h mls = some ms →
      readModuleValuesP h' mls = some ms := by
  intro mls
  induction mls with
  | nil =>
    intro ms hm
    exact hm
  | cons ml rest ih =>
    intro ms hm
    simp only [readModuleValuesP] at hm ⊢
    cases hv : readModuleValueP h ml with
    | none => rw [hv] at hm; cases hm
    | some m =>
      simp only [hv] at hm
      simp only [readModuleValueP_mono hp hv]
      cases hr : readModuleValuesP h rest with
      | none => rw [hr] at hm; cases hm
      | some ms' =>
        simp only [hr] at hm
        simp only [ih hr]
        exact hm

theorem readStoreValueP_mono {h h' : Heap}
    (hp : ∀ (l : Nat) (c : Cell), h.cells l = some c → h'.cells l = some c) :
    ∀ {storeLoc : Nat} {st : Store}, readStoreValueP h storeLoc = some st →
      readStoreValueP h' storeLoc = some st := by
  intro storeLoc st hst
  unfold readStoreValueP at hst ⊢
  cases hrs : readStoreP h storeLoc with
  | none => rw [hrs] at hst; cases hst
  | some configLoc =>
    simp only [hrs] at hst
    have hrs' : readStoreP h' storeLoc = some configLoc := by
      unfold readStoreP
      rw [hp _ _ (readStoreP_cells hrs)]
    simp only [hrs']
    cases hrc : readConfigP h configLoc with
    | none => rw [hrc] at hst; cases hst
    | some pq =>
      obtain ⟨modulesLoc, aliasesLoc⟩ := pq
      simp only [hrc] at hst
      have hrc' : readConfigP h' configLoc = some (modulesLoc, aliasesLoc) := by
        unfold readConfigP
        rw [hp _ _ (readConfigP_cells hrc)]
      simp only [hrc']
      cases hrm : readModArrP h modulesLoc with
      | none => rw [hrm] at hst; cases hst
      | some mls =>
        simp only [hrm] at hst
        have hrm' : readModArrP h' modulesLoc = some mls := by
          unfold readModArrP
          rw [hp _ _ (readModArrP_cells hrm)]
        simp only [hrm']
        cases hmv : readModuleValuesP h mls with
        | none => rw [hmv] at hst; cases hst
        | some modules =>
          simp only [hmv] at hst
          simp only [readModuleValuesP_mono hp hmv]
          cases hra : readAliasObjP h aliasesLoc with
          | none => rw [hra] at hst; cases hst
          | some entries =>
            simp only [hra] at hst
            have hra' : readAliasObjP h' aliasesLoc = some entries := by
              unfold readAliasObjP
              rw [hp _ _ (readAliasObjP_cells hra)]
            simp only [hra']
            exact hst

/-- **C1.** `mutateStore` is copy-on-write: run on the object heap, it
never writes to a location allocated before the call — every pre-existing
cell (the caller's store object, config object, modules array, module
objects, files arrays and aliases object) is unchanged both when it
returns a fresh manifest and when it throws — and on a closed caller heap
the caller's manifest reads back with exactly its original value. -/
theorem mutateStore_copy_on_write (h : Heap) (storeLoc : Nat) (actions : List Action)
    (hclosed : ∀ l, h.next ≤ l → h.cells l = none) :
    (∀ l, l < h.next → (mutateStoreH h storeLoc actions).2.cells l = h.cells l) ∧
    (∀ st, readStoreValueP h storeLoc = some st →
      readStoreValueP (mutateStoreH h storeLoc actions).2 storeLoc = some st) := by
  have hfr := mutateStoreH_frame h storeLoc actions
  exact ⟨hfr.1, fun st hst => readStoreValueP_mono (cells_preserved hfr.1 hclosed) hst⟩

theorem mutateStore_copy_on_write_witness :
    readStoreValueP
        (mutateStoreH exampleHeap 0
          [.addModule { protocol := str "p", path := str "a",
                        version := str "v", files := [] }]).2 0
      = some { config := { modules := [], aliases := [] } } :=
  (mutateStore_copy_on_write exampleHeap 0
      [.addModule { protocol := str "p", path := str "a",
                    version := str "v", files := [] }]
      (fun l hl => by
        have h4 : l - 4 + 4 = l := by
          have : 4 ≤ l := hl
          omega
        rw [← h4]
        rfl)).2
    { config := { modules := [], aliases := [] } } rfl

end Dem
